import Mathlib

/-!
Verification of the tree-node store and tree-view synchronization logic of
`source3/utils/regedit_treeview.c` (Samba registry editor).

The C code manipulates heap-allocated `struct tree_node` values linked by
raw pointers (`parent`, `child_head`, `next`, `previous`).  We model the
heap shallowly as an association list from node identifiers (`Nat`) to
node records, and translate each C function into an explicit state-passing
Lean function over that heap.  Allocation failure (talloc / curses
`new_item` returning NULL) is modelled by a boolean oracle consulted once
per allocation, threaded through as a counter into an oracle function.
-/

namespace Regedit

/-- Model of `struct tree_node`: owned name, lazily derived display label
(nullable), and the four non-owning links, each an optional node id. -/
structure Node where
  name : String
  label : Option String
  parent : Option Nat
  child_head : Option Nat
  next : Option Nat
  previous : Option Nat
deriving DecidableEq

/-- The talloc arena: an association list from node ids to node records.
Presence of a key models that the node is currently allocated. -/
abbrev Heap := List (Nat × Node)

/-- Dereference a node pointer: `none` models NULL / freed. -/
def hfind : Heap → Nat → Option Node
  | [], _ => none
  | (j, n) :: t, i => if i = j then some n else hfind t i

/-- Store a node record at an id (overwriting, or allocating if absent). -/
def hset : Heap → Nat → Node → Heap
  | [], i, n => [(i, n)]
  | (j, m) :: t, i, n => if i = j then (i, n) :: t else (j, m) :: hset t i n

/-- Release a node id (models `talloc_free` of the node). -/
def herase : Heap → Nat → Heap
  | [], _ => []
  | (j, m) :: t, i => if i = j then herase t i else (j, m) :: herase t i

/-- Field update through a pointer: apply `f` to the node at `i`, if present. -/
def adjust (h : Heap) (i : Nat) (f : Node → Node) : Heap :=
  match hfind h i with
  | none => h
  | some n => hset h i (f n)

/-- `tree_node_new(ctx, parent, name)` (lines 22–45).  `fresh` is the id the
arena hands out for the node allocation; `o1` models success of
`talloc_zero`, `o2` success of `talloc_strdup`.  Returns the heap after the
call and the returned pointer (`none` = NULL). -/
def tree_node_new (h : Heap) (parent : Option Nat) (name : String)
    (fresh : Nat) (o1 o2 : Bool) : Heap × Option Nat :=
  if o1 = false then (h, none)
  else
    -- talloc_zero: node allocated with all fields zeroed
    let h1 := hset h fresh
      { name := "", label := none, parent := none, child_head := none,
        next := none, previous := none }
    if o2 = false then (h1, none)  -- name strdup failed; node leaks, parent untouched
    else
      let h2 := adjust h1 fresh (fun m => { m with name := name })
      match parent with
      | none => (h2, some fresh)
      | some p =>
        -- if (!parent->child_head) parent->child_head = node;
        let h3 := match hfind h2 p with
          | none => h2
          | some pn =>
            if pn.child_head = none then
              adjust h2 p (fun m => { m with child_head := some fresh })
            else h2
        -- node->parent = parent;
        (adjust h3 fresh (fun m => { m with parent := some p }), some fresh)

/-- `tree_node_append(left, right)` (lines 47–55): splice `right` in
immediately after `left`, preserving any existing tail. -/
def tree_node_append (h : Heap) (left right : Nat) : Heap :=
  match hfind h left with
  | none => h
  | some ln =>
    let h1 := match ln.next with
      | none => h
      | some q =>
        -- right->next = left->next; left->next->previous = right;
        adjust (adjust h right (fun m => { m with next := some q })) q
          (fun m => { m with previous := some right })
    -- left->next = right; right->previous = left;
    adjust (adjust h1 left (fun m => { m with next := some right })) right
      (fun m => { m with previous := some left })

/-- `tree_node_pop(plist)` (lines 57–80).  Takes the chain reference
(`none` = empty chain) and returns `(heap after, popped node, new value of
the chain reference)`. -/
def tree_node_pop (h : Heap) (plist : Option Nat) :
    Heap × Option Nat × Option Nat :=
  match plist with
  | none => (h, none, none)
  | some nid =>
    match hfind h nid with
    | none => (h, none, plist)   -- dereferencing a dangling pointer: ruled out by hypotheses
    | some n =>
      -- *plist = node->previous; if (*plist == NULL) *plist = node->next;
      let newref := match n.previous with
        | some p => some p
        | none => n.next
      -- if (node->previous) node->previous->next = node->next;
      let h1 := match n.previous with
        | none => h
        | some p => adjust h p (fun m => { m with next := n.next })
      -- if (node->next) node->next->previous = node->previous;
      let h2 := match n.next with
        | none => h1
        | some q => adjust h1 q (fun m => { m with previous := n.previous })
      -- node->next = NULL; node->previous = NULL;
      let h3 := adjust h2 nid (fun m => { m with next := none, previous := none })
      (h3, some nid, newref)

/-- The `while (list && list->previous)` walk of `tree_node_first`,
with explicit fuel (the C loop terminates because real chains are finite). -/
def firstAux (h : Heap) : Nat → Nat → Nat
  | 0, i => i
  | fuel + 1, i =>
    match (hfind h i).bind Node.previous with
    | none => i
    | some p => firstAux h fuel p

/-- `tree_node_first(list)` (lines 82–94): if the node has a parent, return
the parent's cached `child_head`; otherwise walk `previous` links. -/
def tree_node_first (h : Heap) (i : Nat) : Option Nat :=
  match hfind h i with
  | none => none
  | some n =>
    match n.parent with
    | some p => (hfind h p).bind Node.child_head
    | none => some (firstAux h h.length i)

/-- `tree_node_free(node)` (lines 97–104): asserts the node is fully
detached (no children, no sibling links) and releases it.  `none` models
the `SMB_ASSERT` firing (or a dangling pointer). -/
def tree_node_free (h : Heap) (i : Nat) : Option Heap :=
  match hfind h i with
  | none => none
  | some n =>
    if n.child_head = none ∧ n.next = none ∧ n.previous = none then
      some (herase h i)
    else none

/-! ### Doubly-linked sibling chains -/

/-- Head of `rest`, or `after` if `rest` is empty: the value the `next`
field of the node preceding `rest` must hold. -/
def headOr : List Nat → Option Nat → Option Nat
  | [], after => after
  | j :: _, _ => some j

/-- Last element of `xs`, or `prev` if `xs` is empty: the value the
`previous` field of the node following `xs` must hold. -/
def lastOf (prev : Option Nat) : List Nat → Option Nat
  | [] => prev
  | x :: xs => lastOf (some x) xs

/-- `chainSeg h prev ids after`: the nodes `ids` form a consecutive
doubly-linked segment in `h`; the first node's `previous` is `prev` and the
last node's `next` is `after`.  A whole sibling chain is
`chainSeg h none ids none`. -/
def chainSeg (h : Heap) : Option Nat → List Nat → Option Nat → Bool
  | _, [], _ => true
  | prev, i :: rest, after =>
    match hfind h i with
    | none => false
    | some n =>
      n.previous == prev && n.next == headOr rest after &&
        chainSeg h (some i) rest after

/-- The `while ((node = tree_node_pop(&list)) != NULL)` drain loop of
`tree_node_free_recursive`, without the freeing: repeatedly pop from a
single chain reference, collecting the popped nodes, for at most `fuel`
iterations. -/
def drain : Nat → Heap → Option Nat → Heap × List Nat
  | 0, h, _ => (h, [])
  | fuel + 1, h, ref =>
    match tree_node_pop h ref with
    | (h', none, _) => (h', [])
    | (h', some n, ref') =>
      let r := drain fuel h' ref'
      (r.1, n :: r.2)

/-- A concrete three-node parentless chain a–b–c used to instantiate the
chain theorems. -/
def demoChain3 : Heap :=
  [(1, { name := "a", label := none, parent := none, child_head := none,
         next := some 2, previous := none }),
   (2, { name := "b", label := none, parent := none, child_head := none,
         next := some 3, previous := some 1 }),
   (3, { name := "c", label := none, parent := none, child_head := none,
         next := none, previous := some 2 })]

/-- A parent node (id 1) with two children c1 (id 2, the cached
child_head) and c2 (id 3), the children forming a two-node sibling chain. -/
def demoParented : Heap :=
  [(1, { name := "p", label := none, parent := none, child_head := some 2,
         next := none, previous := none }),
   (2, { name := "c1", label := none, parent := some 1, child_head := none,
         next := some 3, previous := none }),
   (3, { name := "c2", label := none, parent := some 1, child_head := none,
         next := none, previous := some 2 })]

/-- Chains as callers of the store build them: start from a single
detached node `hd` whose parent link is `par`, and repeatedly splice a
fresh detached node (same parent link) after an arbitrary existing chain
member with `tree_node_append`. -/
inductive Built (par : Option Nat) (hd : Nat) : Heap → List Nat → Prop
  | base (h : Heap) (n : Node) :
      hfind h hd = some n → n.previous = none → n.next = none →
      n.parent = par → par ≠ some hd → Built par hd h [hd]
  | append (h : Heap) (pre post : List Nat) (left fresh : Nat) (n : Node) :
      Built par hd h (pre ++ left :: post) →
      hfind h fresh = some n →
      n.previous = none → n.next = none → n.parent = par →
      fresh ∉ pre ++ left :: post → par ≠ some fresh →
      Built par hd (tree_node_append h left fresh) (pre ++ left :: fresh :: post)

/-- Two detached parentless nodes used to instantiate the append/first
theorems. -/
def demoPair : Heap :=
  [(5, { name := "x", label := none, parent := none, child_head := none,
         next := none, previous := none }),
   (6, { name := "y", label := none, parent := none, child_head := none,
         next := none, previous := none })]

/-- Caller-driven store operations: node creation (with a successful
allocation pair, as callers observe when talloc does not fail) and sibling
splice.  `fresh` is the arena-chosen id of the created node. -/
inductive Op where
  | create (parent : Option Nat) (nm : String) (fresh : Nat)
  | append (left right : Nat)

/-- A create's parent pointer refers to a live allocation (or is NULL). -/
def parentOk (h : Heap) : Option Nat → Bool
  | none => true
  | some q => hfind h q ≠ none

/-- Run a sequence of create/append operations; `none` marks an invalid
sequence (a create whose id is already allocated or whose parent pointer
dangles, which cannot happen with a real arena). -/
def exec : Heap → List Op → Option Heap
  | h, [] => some h
  | h, Op.create par nm fresh :: ops =>
    if hfind h fresh = none ∧ parentOk h par = true then
      exec (tree_node_new h par nm fresh true true).1 ops
    else none
  | h, Op.append l r :: ops => exec (tree_node_append h l r) ops

/-- The children created under parent `p` by an operation sequence, in
creation order. -/
def createdChildren (p : Nat) : List Op → List Nat
  | [] => []
  | Op.create (some q) _ fresh :: ops =>
    if q = p then fresh :: createdChildren p ops else createdChildren p ops
  | Op.create none _ _ :: ops => createdChildren p ops
  | Op.append _ _ :: ops => createdChildren p ops

/-- A single childless root node, id 1. -/
def demoRoot : Heap :=
  [(1, { name := "r", label := none, parent := none, child_head := none,
         next := none, previous := none })]

/-- Create children c1 (id 2) and c2 (id 3) under the root, splice c2
after c1, then pop c1 (the cached child_head) from the child chain. -/
def c2afterOps : Heap × Option Nat × Option Nat :=
  tree_node_pop
    (tree_node_append
      ((tree_node_new
        ((tree_node_new demoRoot (some 1) "c1" 2 true true).1)
        (some 1) "c2" 3 true true).1) 2 3)
    (some 2)

/-- The concrete operation sequence of the C2 scenario: create c1 (id 2)
and c2 (id 3) under the root (id 1), then splice c2 after c1. -/
def c2ops : List Op :=
  [Op.create (some 1) "c1" 2, Op.create (some 1) "c2" 3, Op.append 2 3]

/-- `tree_node_free_recursive(list)` (lines 106–121), with explicit fuel
for the pop loop and recursion (the C version terminates because trees are
finite).  Returns the heap after the call and the ids released, in release
order; `none` models fuel exhaustion, a dangling-pointer dereference, or
an `SMB_ASSERT` failure inside `tree_node_free`. -/
def tree_node_free_recursive : Nat → Heap → Option Nat → Option (Heap × List Nat)
  | _, h, none => some (h, [])
  | 0, _, some _ => none
  | fuel + 1, h, some nid =>
    match tree_node_pop h (some nid) with
    | (_, none, _) => none
    | (h1, some x, ref) =>
      match hfind h1 x with
      | none => none
      | some xn =>
        -- if (node->child_head) tree_node_free_recursive(node->child_head);
        match tree_node_free_recursive fuel h1 xn.child_head with
        | none => none
        | some r1 =>
          -- node->child_head = NULL; tree_node_free(node);
          match tree_node_free
              (adjust r1.1 x (fun m => { m with child_head := none })) x with
          | none => none
          | some h4 =>
            -- the while loop continues on the advanced reference
            match tree_node_free_recursive fuel h4 ref with
            | none => none
            | some r2 => some (r2.1, r1.2 ++ x :: r2.2)

/-- Finite rose trees of node ids: the verification-side description of a
tree_node forest. -/
inductive NTree where
  | node (id : Nat) (children : List NTree)

/-- All ids of a forest, each node's children listed before the node (the
release order `tree_node_free_recursive` must follow). -/
def postorder : List NTree → List Nat
  | [] => []
  | NTree.node i cs :: ts => postorder cs ++ i :: postorder ts

/-- The root ids of a forest (one sibling chain). -/
def roots : List NTree → List Nat
  | [] => []
  | NTree.node i _ :: ts => i :: roots ts

/-- The ids strictly below the roots of a forest. -/
def subIds : List NTree → List Nat
  | [] => []
  | NTree.node _ cs :: ts => postorder cs ++ subIds ts

/-- Each forest node is allocated, its child_head caches the head of its
children's chain, and each children list forms a valid sibling chain. -/
def reprTrees (h : Heap) : List NTree → Bool
  | [] => true
  | NTree.node i cs :: ts =>
    ((hfind h i).map Node.child_head == some ((roots cs).head?)) &&
    chainSeg h none (roots cs) none && reprTrees h cs && reprTrees h ts

/-- A forest laid out in the heap: the roots form a valid sibling chain
and every node satisfies `reprTrees`. -/
def reprForest (h : Heap) (ts : List NTree) : Bool :=
  chainSeg h none (roots ts) none && reprTrees h ts

/-- A curses menu item as built by `new_item(label, tmp->name)` plus the
`set_item_userptr` attachment: display text, description, user pointer. -/
structure Item where
  display : String
  descr : String
  userptr : Option Nat
deriving DecidableEq

/-- The modelled `struct tree_view` state: the root chain pointer and the
currently posted item array.  `current_items` slots are `Option Item`
(`none` = NULL item pointer), the trailing `none` being the sentinel slot
of the `talloc_zero_array(…, n_items + 1)`.  The curses window and menu
handles carry no modelled state. -/
structure TreeView where
  root : Option Nat
  current_items : Option (List (Option Item))
deriving DecidableEq

/-- The WERROR results `tree_view_update` can produce, plus a marker for a
fired `SMB_ASSERT`. -/
inductive WError where
  | ok
  | nomem
  | assertFailed
deriving DecidableEq

/-- The `for (n_items = 0, tmp = list; tmp; tmp = tmp->next)` counting walk
of `tree_view_update` (lines 155–157), with fuel. -/
def walkNexts (h : Heap) : Nat → Option Nat → List Nat
  | 0, _ => []
  | _ + 1, none => []
  | fuel + 1, some i =>
    match hfind h i with
    | none => []
    | some n => i :: walkNexts h fuel n.next

/-- Forward-linked chain: consecutive `next` links ending in NULL, every
node allocated. -/
def nextChainB (h : Heap) : List Nat → Bool
  | [] => true
  | i :: rest =>
    match hfind h i with
    | none => false
    | some n => n.next == headOr rest none && nextChainB h rest

/-- Result of the item-building loop: the mutated heap, the next oracle
index, and the item slots built, or the `W_ERROR_HAVE_NO_MEMORY` return,
or a fired `SMB_ASSERT`. -/
inductive BuildRes where
  | ok (h : Heap) (k : Nat) (entries : List (Option Item))
  | nomem (h : Heap) (k : Nat)
  | assertFailed (h : Heap) (k : Nat)

/-- The heap carried by a `BuildRes`. -/
def BuildRes.heap : BuildRes → Heap
  | .ok h _ _ => h
  | .nomem h _ => h
  | .assertFailed h _ => h

/-- The item-building loop of `tree_view_update` (lines 161–175).  For each
node: the display text defaults to the name; a children-bearing node first
passes `SMB_ASSERT(tmp->label == NULL)`, then allocates and caches
`label = "+name"` (oracle index k), failing with `W_ERROR_HAVE_NO_MEMORY`
if that allocation fails; then `new_item` is called (next oracle index) —
its NULL result is NOT checked by the code, a `none` slot is stored. -/
def buildItems (o : Nat → Bool) (h : Heap) (k : Nat) :
    List Nat → BuildRes
  | [] => .ok h k []
  | i :: rest =>
    match hfind h i with
    | none => .assertFailed h k
    | some n =>
      match n.child_head with
      | some _ =>
        if n.label ≠ none then .assertFailed h k
        else if o k then
          let h' := adjust h i
            (fun m => { m with label := some ("+" ++ n.name) })
          let it : Option Item :=
            if o (k + 1) then
              some { display := "+" ++ n.name, descr := n.name,
                     userptr := some i }
            else none
          match buildItems o h' (k + 2) rest with
          | .ok h'' k'' entries => .ok h'' k'' (it :: entries)
          | r => r
        else .nomem h (k + 1)
      | none =>
        let it : Option Item :=
          if o k then
            some { display := n.name, descr := n.name, userptr := some i }
          else none
        match buildItems o h (k + 1) rest with
        | .ok h'' k'' entries => .ok h'' k'' (it :: entries)
        | r => r

/-- The item a fully successful update builds for node `i`: display text
is the name, "+"-prefixed exactly when the node has a child_head. -/
def mkItem (h : Heap) (i : Nat) : Item :=
  match hfind h i with
  | none => { display := "", descr := "", userptr := none }
  | some n =>
    { display := if n.child_head = none then n.name else "+" ++ n.name,
      descr := n.name, userptr := some i }

/-- The release loop of `tree_view_free_current_items` (lines 133–141):
walk the posted array up to the first NULL entry; for each item, free the
cached label of the node behind its user pointer, if any. -/
def freeStep (h : Heap) (it : Item) : Heap :=
  -- tmp = item_userptr(item); if (tmp && tmp->label) { free; tmp->label = NULL; }
  match it.userptr with
  | none => h
  | some nid =>
    match hfind h nid with
    | none => h
    | some n =>
      if n.label ≠ none then
        adjust h nid (fun m => { m with label := none })
      else h

def freeItemsLoop (h : Heap) : List (Option Item) → Heap
  | [] => h
  | none :: _ => h
  | some it :: rest => freeItemsLoop (freeStep h it) rest

/-- `tree_view_free_current_items(view)` (lines 123–144). -/
def tree_view_free_current_items (h : Heap) (v : TreeView) :
    Heap × TreeView :=
  match v.current_items with
  | none => (h, v)
  | some arr => (freeItemsLoop h arr, { v with current_items := none })

/-- `tree_view_update(ctx, view, list)` (lines 146–183).  `o` is the
allocation oracle, consulted at `k` for the `talloc_zero_array` and then
by the building loop.  On success the widget's item set is swapped to the
new array, the previous items are released (clearing cached labels), and
the new array becomes `current_items`. -/
def tree_view_update (o : Nat → Bool) (h : Heap) (v : TreeView)
    (list : Option Nat) (k : Nat) : Heap × TreeView × Nat × WError :=
  let l := match list with
    | none => v.root
    | some x => some x
  let ids := walkNexts h h.length l
  if o k then
    match buildItems o h (k + 1) ids with
    | .nomem h' k' => (h', v, k', .nomem)
    | .assertFailed h' k' => (h', v, k', .assertFailed)
    | .ok h' k' entries =>
      let fr := tree_view_free_current_items h' v
      (fr.1, { fr.2 with current_items := some (entries ++ [none]) }, k',
        .ok)
  else (h, v, k + 1, .nomem)

/-- Node record with the label field forgotten: everything `tree_view_update`
must not corrupt (links and name). -/
def stripLabel (n : Node) : Node := { n with label := none }

/-- The items of the currently posted array (NULL slots dropped). -/
def itemsOf (v : TreeView) : List Item :=
  match v.current_items with
  | none => []
  | some arr => arr.filterMap id

/-- The nodes referenced by the currently posted items. -/
def ptrsOf (v : TreeView) : List Nat :=
  (itemsOf v).filterMap Item.userptr

/-- The display texts of the currently posted items, in order. -/
def postedDisplays (v : TreeView) : List String :=
  (itemsOf v).map Item.display

/-- The posted array, when present, is fully built: proper items followed
by the single NULL sentinel (the shape every successful update posts). -/
def ViewWF (v : TreeView) : Prop :=
  ∀ arr, v.current_items = some arr →
    ∃ its : List Item, arr = its.map some ++ [none]

/-- A node's label is non-null only if the node is referenced by the
currently posted item list. -/
def LabelInv (h : Heap) (v : TreeView) : Prop :=
  ∀ i n, hfind h i = some n → n.label ≠ none → i ∈ ptrsOf v

/-- The C3 scenario heap: root chain a (1) – b (2) – c (3), where b has a
single child b1 (4) cached as its child_head. -/
def c3heap : Heap :=
  [(1, { name := "a", label := none, parent := none, child_head := none,
         next := some 2, previous := none }),
   (2, { name := "b", label := none, parent := none, child_head := some 4,
         next := some 3, previous := some 1 }),
   (3, { name := "c", label := none, parent := none, child_head := none,
         next := none, previous := some 2 }),
   (4, { name := "b1", label := none, parent := some 2, child_head := none,
         next := none, previous := none })]

/-- A fresh view over the C3 heap, nothing posted yet. -/
def c3view : TreeView := { root := some 1, current_items := none }

/-- First update of the C3 scenario: post the root chain. -/
def c3step1 : Heap × TreeView × Nat × WError :=
  tree_view_update (fun _ => true) c3heap c3view (some 1) 0

/-- Second update of the C3 scenario: post b's child chain. -/
def c3step2 : Heap × TreeView × Nat × WError :=
  tree_view_update (fun _ => true) c3step1.1 c3step1.2.1 (some 4) 0

/-- The items the first C3-style update posts, as an explicit literal:
the fixture for exercising the label-release path of a second update. -/
def c9items : List Item :=
  [{ display := "a", descr := "a", userptr := some 1 },
   { display := "+b", descr := "b", userptr := some 2 },
   { display := "c", descr := "c", userptr := some 3 }]

/-- The heap state after a first update posted the root chain a-b-c:
b carries the cached label "+b"; its child b1 is unposted. -/
def c9heap : Heap :=
  [(1, { name := "a", label := none, parent := none, child_head := none,
         next := some 2, previous := none }),
   (2, { name := "b", label := some "+b", parent := none,
         child_head := some 4, next := some 3, previous := some 1 }),
   (3, { name := "c", label := none, parent := none, child_head := none,
         next := none, previous := some 2 }),
   (4, { name := "b1", label := none, parent := some 2, child_head := none,
         next := none, previous := none })]

/-- The view with `c9items` currently posted (proper items followed by the
NULL sentinel). -/
def c9view : TreeView :=
  { root := some 1, current_items := some (c9items.map some ++ [none]) }

/-! ### Theorems -/

theorem hfind_hset (h : Heap) (i : Nat) (n : Node) (j : Nat) :
    hfind (hset h i n) j = if j = i then some n else hfind h j := by
  induction h with
  | nil =>
    by_cases hji : j = i <;> simp [hset, hfind, hji]
  | cons p t ih =>
    obtain ⟨k, m⟩ := p
    simp only [hset]
    by_cases hik : i = k
    · subst hik
      simp only [if_pos rfl, hfind]
      by_cases hji : j = i <;> simp [hji]
    · simp only [if_neg hik, hfind]
      by_cases hjk : j = k
      · subst hjk
        have : ¬ j = i := fun hc => hik (hc ▸ rfl)
        simp [this]
      · simp [hjk, ih]

theorem hfind_herase (h : Heap) (i : Nat) (j : Nat) :
    hfind (herase h i) j = if j = i then none else hfind h j := by
  induction h with
  | nil => simp [herase, hfind]
  | cons p t ih =>
    obtain ⟨k, m⟩ := p
    simp only [herase]
    by_cases hik : i = k
    · subst hik
      rw [if_pos rfl, ih, hfind]
      by_cases hji : j = i <;> simp [hji]
    · rw [if_neg hik]
      simp only [hfind]
      by_cases hjk : j = k
      · subst hjk
        have : ¬ j = i := fun hc => hik (hc ▸ rfl)
        simp [this]
      · simp [hjk, ih]

theorem hfind_adjust (h : Heap) (i : Nat) (f : Node → Node) (j : Nat) :
    hfind (adjust h i f) j =
      if j = i then (hfind h i).map f else hfind h j := by
  unfold adjust
  cases hf : hfind h i with
  | none =>
    by_cases hji : j = i <;> simp [hji, hf]
  | some n =>
    rw [hfind_hset]
    by_cases hji : j = i <;> simp [hji, hf]

theorem headOr_append (xs ys : List Nat) (after : Option Nat) :
    headOr (xs ++ ys) after = headOr xs (headOr ys after) := by
  cases xs <;> rfl

theorem lastOf_concat (prev : Option Nat) (xs : List Nat) (p : Nat) :
    lastOf prev (xs ++ [p]) = some p := by
  induction xs generalizing prev with
  | nil => rfl
  | cons x xs ih => simpa [lastOf] using ih (some x)

theorem chainSeg_append (h : Heap) (prev after : Option Nat)
    (xs ys : List Nat) :
    chainSeg h prev (xs ++ ys) after =
      (chainSeg h prev xs (headOr ys after) &&
        chainSeg h (lastOf prev xs) ys after) := by
  induction xs generalizing prev with
  | nil => simp [chainSeg, lastOf]
  | cons x xs ih =>
    cases hfx : hfind h x with
    | none => simp [chainSeg, hfx]
    | some n =>
      simp only [List.cons_append, chainSeg, hfx, lastOf, List.append_eq]
      rw [headOr_append, ih (some x)]
      simp [Bool.and_assoc]

/-- `chainSeg` only looks at the nodes in the segment. -/
theorem chainSeg_congr (h h' : Heap) (prev after : Option Nat)
    (ids : List Nat) (hagree : ∀ i ∈ ids, hfind h' i = hfind h i) :
    chainSeg h' prev ids after = chainSeg h prev ids after := by
  induction ids generalizing prev with
  | nil => rfl
  | cons i rest ih =>
    simp only [chainSeg]
    rw [hagree i (by simp)]
    cases hfind h i with
    | none => rfl
    | some n =>
      rw [ih (some i) (fun j hj => hagree j (by simp [hj]))]

/-- Every member of a valid segment is an allocated node. -/
theorem chainSeg_find (h : Heap) (prev after : Option Nat) (ids : List Nat)
    (hc : chainSeg h prev ids after = true) :
    ∀ i ∈ ids, ∃ n, hfind h i = some n := by
  induction ids generalizing prev with
  | nil => simp
  | cons i rest ih =>
    simp only [chainSeg] at hc
    cases hfi : hfind h i with
    | none => rw [hfi] at hc; exact absurd hc (by simp)
    | some n =>
      rw [hfi] at hc
      simp only [Bool.and_eq_true] at hc
      intro j hj
      rcases List.mem_cons.1 hj with rfl | hj
      · exact ⟨n, hfi⟩
      · exact ih (some i) hc.2 j hj

/-- Unfolding a non-empty segment at its head. -/
theorem chainSeg_cons (h : Heap) (prev after : Option Nat) (x : Nat)
    (rest : List Nat) (hc : chainSeg h prev (x :: rest) after = true) :
    ∃ n, hfind h x = some n ∧ n.previous = prev ∧
      n.next = headOr rest after ∧ chainSeg h (some x) rest after = true := by
  simp only [chainSeg] at hc
  cases hfx : hfind h x with
  | none => rw [hfx] at hc; exact absurd hc (by simp)
  | some n =>
    rw [hfx] at hc
    simp only [Bool.and_eq_true, beq_iff_eq] at hc
    exact ⟨n, rfl, hc.1.1, hc.1.2, hc.2⟩

/-- Rebuild a segment whose last node had its `next` field retargeted and
whose other nodes are untouched. -/
theorem chainSeg_retarget (h h' : Heap) (prev : Option Nat)
    (xs : List Nat) (p : Nat) (old new : Option Nat)
    (hc : chainSeg h prev (xs ++ [p]) old = true)
    (hagree : ∀ i ∈ xs, hfind h' i = hfind h i)
    (hp : hfind h' p = (hfind h p).map (fun n => { n with next := new })) :
    chainSeg h' prev (xs ++ [p]) new = true := by
  rw [chainSeg_append] at hc ⊢
  simp only [Bool.and_eq_true] at hc ⊢
  obtain ⟨hxs, hlast⟩ := hc
  constructor
  · rw [chainSeg_congr h h' _ _ xs hagree]
    simpa [headOr] using hxs
  · obtain ⟨n, hfp, hprev, hnext, -⟩ :=
      chainSeg_cons h _ _ p [] hlast
    simp only [chainSeg, hp, hfp, Option.map_some']
    simp [hprev, headOr]

/-- Rebuild a segment whose head node had its `previous` field retargeted
and whose other nodes are untouched. -/
theorem chainSeg_rehead (h h' : Heap) (after : Option Nat)
    (q : Nat) (ys : List Nat) (old new : Option Nat)
    (hc : chainSeg h old (q :: ys) after = true)
    (hagree : ∀ i ∈ ys, hfind h' i = hfind h i)
    (hq : hfind h' q = (hfind h q).map (fun n => { n with previous := new })) :
    chainSeg h' new (q :: ys) after = true := by
  obtain ⟨n, hfq, -, hnext, hrest⟩ := chainSeg_cons h _ _ q ys hc
  simp only [chainSeg, hq, hfq, Option.map_some']
  rw [chainSeg_congr h h' (some q) after ys hagree]
  simp [hnext, hrest]

/-- Full characterization of `tree_node_pop` at an arbitrary position of a
valid chain `pre ++ x :: post`: it returns `x`, advances the reference to
the last node of `pre` (else the head of `post`), detaches `x`, re-links
the neighbors so that `pre ++ post` is again a valid chain, and touches no
node outside the chain. -/
theorem tree_node_pop_at (h : Heap) (pre post : List Nat) (x : Nat)
    (hc : chainSeg h none (pre ++ x :: post) none = true)
    (hd : (pre ++ x :: post).Nodup) :
    (tree_node_pop h (some x)).2.1 = some x ∧
    (tree_node_pop h (some x)).2.2 =
      (match lastOf none pre with
        | some p => some p
        | none => headOr post none) ∧
    hfind (tree_node_pop h (some x)).1 x =
      (hfind h x).map (fun n => { n with next := none, previous := none }) ∧
    chainSeg (tree_node_pop h (some x)).1 none (pre ++ post) none = true ∧
    (∀ j, j ∉ pre ++ x :: post →
      hfind (tree_node_pop h (some x)).1 j = hfind h j) := by
  rw [chainSeg_append] at hc
  simp only [Bool.and_eq_true] at hc
  obtain ⟨hc1, hc2⟩ := hc
  obtain ⟨n, hfx0, hprev, hnext, hpost⟩ := chainSeg_cons h _ _ x post hc2
  simp only [headOr] at hc1
  rw [List.nodup_append] at hd
  obtain ⟨hdpre, hdxp, hdisj⟩ := hd
  have hpostnd : post.Nodup := (List.nodup_cons.1 hdxp).2
  have hxpost : x ∉ post := (List.nodup_cons.1 hdxp).1
  have hxpre : x ∉ pre := fun hx => hdisj hx (List.mem_cons_self x post)
  have hpp : ∀ i ∈ pre, i ∉ post := fun i hi hip =>
    hdisj hi (List.mem_cons_of_mem x hip)
  simp only [tree_node_pop, hfx0]
  rcases List.eq_nil_or_concat pre with rfl | ⟨xs₀, p, rfl⟩
  · -- no previous neighbor: the reference advances to `next`
    simp only [lastOf] at hprev
    cases post with
    | nil =>
      simp only [headOr] at hnext
      simp only [hprev, hnext]
      refine ⟨by trivial, by simp [lastOf, headOr], ?_, ?_, ?_⟩
      · simp [hfind_adjust, hfx0]
      · simp [chainSeg]
      · intro j hj
        have hjx : ¬ j = x := by simpa using hj
        simp [hfind_adjust, hjx]
    | cons q post' =>
      simp only [headOr] at hnext
      have hqx : q ≠ x := by
        rintro rfl; exact hxpost (List.mem_cons_self q post')
      have hxq : ¬ x = q := fun e => hqx e.symm
      have hqp' : q ∉ post' := (List.nodup_cons.1 hpostnd).1
      simp only [hprev, hnext]
      refine ⟨by trivial, by simp [lastOf, headOr], ?_, ?_, ?_⟩
      · simp [hfind_adjust, hfx0, hxq]
      · simp only [List.nil_append]
        refine chainSeg_rehead h _ none q post' (some x) none hpost ?_ ?_
        · intro i hi
          have hix : ¬ i = x := fun e => hxpost (e ▸ List.mem_cons_of_mem q hi)
          have hiq : ¬ i = q := fun e => hqp' (e ▸ hi)
          simp [hfind_adjust, hix, hiq]
        · simp [hfind_adjust, hqx, hxq]
      · intro j hj
        simp only [List.nil_append, List.mem_cons] at hj
        push_neg at hj
        simp [hfind_adjust, hj.1, hj.2.1]
  · -- a previous neighbor exists: the reference advances to it
    simp only [List.concat_eq_append] at hc1 hc2 hprev hdpre hdisj hxpre hpp ⊢
    rw [lastOf_concat] at hprev
    have hpmem : p ∈ xs₀ ++ [p] := by simp
    have hpx : p ≠ x := by rintro rfl; exact hxpre hpmem
    have hxp : ¬ x = p := fun e => hpx e.symm
    have hpxs : p ∉ xs₀ := by
      have := List.nodup_append.1 hdpre
      exact fun hpin => this.2.2 hpin (List.mem_cons_self p [])
    have hxxs : x ∉ xs₀ := fun hx => hxpre (List.mem_append_left [p] hx)
    cases post with
    | nil =>
      simp only [headOr] at hnext
      simp only [hprev, hnext]
      refine ⟨by trivial, by simp [lastOf_concat], ?_, ?_, ?_⟩
      · simp [hfind_adjust, hfx0, hxp]
      · simp only [List.append_nil]
        refine chainSeg_retarget h _ none xs₀ p (some x) none hc1 ?_ ?_
        · intro i hi
          have hip : ¬ i = p := fun e => hpxs (e ▸ hi)
          have hix : ¬ i = x := fun e => hxxs (e ▸ hi)
          simp [hfind_adjust, hip, hix]
        · simp [hfind_adjust, hpx, hxp]
      · intro j hj
        simp only [List.append_assoc, List.singleton_append, List.mem_append,
          List.mem_cons] at hj
        push_neg at hj
        simp [hfind_adjust, hj.2.1, hj.2.2.1]
    | cons q post' =>
      simp only [headOr] at hnext
      have hqpost : q ∈ q :: post' := List.mem_cons_self q post'
      have hqx : q ≠ x := by rintro rfl; exact hxpost hqpost
      have hxq : ¬ x = q := fun e => hqx e.symm
      have hqp : ¬ q = p := fun e => hpp p hpmem (e ▸ hqpost)
      have hpq : ¬ p = q := fun e => hqp e.symm
      have hqp' : q ∉ post' := (List.nodup_cons.1 hpostnd).1
      simp only [hprev, hnext]
      refine ⟨by trivial, by simp [lastOf_concat], ?_, ?_, ?_⟩
      · simp [hfind_adjust, hfx0, hxp, hxq]
      · rw [chainSeg_append]
        simp only [Bool.and_eq_true]
        constructor
        · have : headOr (q :: post') none = some q := rfl
          rw [this]
          refine chainSeg_retarget h _ none xs₀ p (some x) (some q) hc1 ?_ ?_
          · intro i hi
            have hip : ¬ i = p := fun e => hpxs (e ▸ hi)
            have hix : ¬ i = x := fun e => hxxs (e ▸ hi)
            have hiq : ¬ i = q :=
              fun e => hpp i (List.mem_append_left [p] hi) (e ▸ hqpost)
            simp [hfind_adjust, hip, hix, hiq]
          · simp [hfind_adjust, hpx, hxp, hpq]
        · rw [lastOf_concat]
          refine chainSeg_rehead h _ none q post' (some x) (some p) hpost ?_ ?_
          · intro i hi
            have hix : ¬ i = x := fun e => hxpost (e ▸ List.mem_cons_of_mem q hi)
            have hiq : ¬ i = q := fun e => hqp' (e ▸ hi)
            have hip : ¬ i = p :=
              fun e => hpp p hpmem (e ▸ List.mem_cons_of_mem q hi)
            simp [hfind_adjust, hix, hiq, hip]
          · simp [hfind_adjust, hqx, hxq, hqp]
      · intro j hj
        simp only [List.append_assoc, List.singleton_append, List.mem_append,
          List.mem_cons] at hj
        push_neg at hj
        simp [hfind_adjust, hj.2.1, hj.2.2.1, hj.2.2.2.1]

/-- A field update that leaves projection `g` alone leaves `g` of every
node in the heap alone. -/
theorem adjust_proj {α : Type} (g : Node → α) (h : Heap) (i : Nat)
    (f : Node → Node) (j : Nat) (hf : ∀ n, g (f n) = g n) :
    (hfind (adjust h i f) j).map g = (hfind h j).map g := by
  rw [hfind_adjust]
  split_ifs with hji
  · subst hji
    cases hfind h j <;> simp [hf]
  · rfl

/-- `tree_node_pop` writes only `next`/`previous` fields: any projection
ignoring those two fields is unchanged on every node of the heap. -/
theorem tree_node_pop_proj {α : Type} (g : Node → α)
    (hg : ∀ n v w, g { n with next := v, previous := w } = g n)
    (h : Heap) (r : Option Nat) (j : Nat) :
    (hfind (tree_node_pop h r).1 j).map g = (hfind h j).map g := by
  have hgn : ∀ (n : Node) (v : Option Nat), g { n with next := v } = g n :=
    fun n v => hg n v n.previous
  have hgp : ∀ (n : Node) (w : Option Nat), g { n with previous := w } = g n :=
    fun n w => hg n n.next w
  cases r with
  | none => rfl
  | some nid =>
    cases hfx : hfind h nid with
    | none => simp [tree_node_pop, hfx]
    | some n =>
      simp only [tree_node_pop, hfx]
      rcases hp : n.previous with _ | p <;> rcases hq : n.next with _ | q <;>
          simp only [hp, hq]
      · rw [adjust_proj g _ _ _ _ (fun m => hg m none none)]
      · rw [adjust_proj g _ _ _ _ (fun m => hg m none none),
          adjust_proj g _ _ _ _ (fun m => hgp m _)]
      · rw [adjust_proj g _ _ _ _ (fun m => hg m none none),
          adjust_proj g _ _ _ _ (fun m => hgn m _)]
      · rw [adjust_proj g _ _ _ _ (fun m => hg m none none),
          adjust_proj g _ _ _ _ (fun m => hgp m _),
          adjust_proj g _ _ _ _ (fun m => hgn m _)]

theorem drain_none (fuel : Nat) (h : Heap) : drain fuel h none = (h, []) := by
  cases fuel <;> rfl

/-- Popping repeatedly from a single reference anywhere inside a valid
chain visits every node of the chain exactly once. -/
theorem drain_chain (fuel : Nat) :
    ∀ (h : Heap) (pre post : List Nat) (x : Nat),
      chainSeg h none (pre ++ x :: post) none = true →
      (pre ++ x :: post).Nodup →
      (pre ++ x :: post).length ≤ fuel →
      (drain fuel h (some x)).2.Perm (pre ++ x :: post) := by
  induction fuel with
  | zero =>
    intro h pre post x _ _ hlen
    exact absurd hlen (by simp)
  | succ fuel ih =>
    intro h pre post x hc hd hlen
    obtain ⟨hret, href, -, hchain, -⟩ := tree_node_pop_at h pre post x hc hd
    have hnd' : (pre ++ post).Nodup :=
      hd.sublist ((List.sublist_cons_self x post).append_left pre)
    rcases hpop : tree_node_pop h (some x) with ⟨h', r, ref'⟩
    rw [hpop] at hret href hchain
    simp only at hret href hchain
    subst hret
    simp only [drain, hpop]
    rcases List.eq_nil_or_concat pre with rfl | ⟨xs₀, p, rfl⟩
    · simp only [lastOf] at href
      cases post with
      | nil =>
        subst href
        simp [drain_none, headOr]
      | cons q post' =>
        simp only [headOr] at href
        subst href
        have hperm := ih h' [] post' q (by simpa using hchain)
          (by simpa using hnd')
          (by simp at hlen ⊢; omega)
        simpa using hperm.cons x
    · simp only [List.concat_eq_append] at href hchain hnd' hlen ⊢
      rw [lastOf_concat] at href
      subst href
      have heq : (xs₀ ++ [p]) ++ post = xs₀ ++ p :: post := by simp
      rw [heq] at hchain hnd'
      have hperm := ih h' xs₀ post p hchain hnd'
        (by simp at hlen ⊢; omega)
      have hstep : (x :: (xs₀ ++ p :: post)).Perm (xs₀ ++ [p] ++ x :: post) := by
        rw [← heq]
        exact List.perm_middle.symm
      exact (hperm.cons x).trans hstep

/-- C5: pop of a null chain reference returns null and changes nothing;
otherwise pop returns the referenced node, re-links the former previous and
next neighbors directly to each other (the remaining ids again form a valid
chain), advances the reference to the previous neighbor if one exists and
otherwise to the next neighbor (previous-biased), and repeated pops from
the single advanced reference drain the entire chain, popping each node of
the chain exactly once. -/
theorem C5_pop_semantics :
    (∀ h : Heap, tree_node_pop h none = (h, none, none)) ∧
    (∀ (h : Heap) (pre post : List Nat) (x : Nat),
      chainSeg h none (pre ++ x :: post) none = true →
      (pre ++ x :: post).Nodup →
      (tree_node_pop h (some x)).2.1 = some x ∧
      (tree_node_pop h (some x)).2.2 =
        (match lastOf none pre with
          | some p => some p
          | none => headOr post none) ∧
      chainSeg (tree_node_pop h (some x)).1 none (pre ++ post) none = true ∧
      (drain (pre ++ x :: post).length h (some x)).2.Perm (pre ++ x :: post)) := by
  refine ⟨fun h => rfl, fun h pre post x hc hd => ?_⟩
  obtain ⟨h1, h2, -, h4, -⟩ := tree_node_pop_at h pre post x hc hd
  exact ⟨h1, h2, h4, drain_chain _ h pre post x hc hd le_rfl⟩

/-- Witness for C5: instantiation at the middle node of the concrete chain
1–2–3, with the hypotheses discharged by computation. -/
theorem C5_pop_semantics_witness :
    chainSeg demoChain3 none ([1] ++ 2 :: [3]) none = true ∧
    ([1] ++ 2 :: [3] : List Nat).Nodup ∧
    ((tree_node_pop demoChain3 (some 2)).2.1 = some 2 ∧
      (tree_node_pop demoChain3 (some 2)).2.2 =
        (match lastOf none [1] with
          | some p => some p
          | none => headOr [3] none) ∧
      chainSeg (tree_node_pop demoChain3 (some 2)).1 none ([1] ++ [3]) none = true ∧
      (drain ([1] ++ 2 :: [3] : List Nat).length demoChain3 (some 2)).2.Perm
        ([1] ++ 2 :: [3])) :=
  ⟨by decide, by decide,
    C5_pop_semantics.2 demoChain3 [1] [3] 2 (by decide) (by decide)⟩

/-- The `previous`-walk of `tree_node_first` never leaves the chain it
starts in. -/
theorem firstAux_mem (h : Heap) (ids : List Nat)
    (hc : chainSeg h none ids none = true) :
    ∀ (fuel r : Nat), r ∈ ids → firstAux h fuel r ∈ ids := by
  intro fuel
  induction fuel with
  | zero => intro r hr; simpa [firstAux] using hr
  | succ fuel ih =>
    intro r hr
    obtain ⟨pre, post, hids⟩ := List.append_of_mem hr
    have hc' := hc
    rw [hids, chainSeg_append] at hc'
    simp only [Bool.and_eq_true] at hc'
    obtain ⟨-, hc2⟩ := hc'
    obtain ⟨n, hfr, hprev, -, -⟩ := chainSeg_cons h _ _ r post hc2
    rcases List.eq_nil_or_concat pre with rfl | ⟨xs₀, p, rfl⟩
    · simp only [lastOf] at hprev
      simp [firstAux, hfr, hprev, hr]
    · rw [List.concat_eq_append, lastOf_concat] at hprev
      have hpmem : p ∈ ids := by
        rw [hids]; simp
      have hrec := ih p hpmem
      simp [firstAux, hfr, hprev, hrec]

/-- C4 (amended): after pop(chainRef) returns node x from a valid chain,
x's next and previous links are both null; and when the chain is still
non-empty, first applied to the advanced reference does not return x as
long as the advanced node either has no parent (the previous-walk path) or
its parent's cached child_head is not x.  The excluded case is real:
popping a parented chain's cached head leaves the parent's child_head
pointing at the popped node and first then returns it (see the
counterexample). -/
theorem C4_pop_then_first (h : Heap) (pre post : List Nat) (x : Nat)
    (hc : chainSeg h none (pre ++ x :: post) none = true)
    (hd : (pre ++ x :: post).Nodup) :
    hfind (tree_node_pop h (some x)).1 x =
      (hfind h x).map (fun n => { n with next := none, previous := none }) ∧
    (∀ r nr, (tree_node_pop h (some x)).2.2 = some r →
      hfind (tree_node_pop h (some x)).1 r = some nr →
      (nr.parent = none ∨
        (∃ q, nr.parent = some q ∧
          (hfind (tree_node_pop h (some x)).1 q).bind Node.child_head ≠ some x)) →
      tree_node_first (tree_node_pop h (some x)).1 r ≠ some x) := by
  obtain ⟨-, href, hx, hchain, -⟩ := tree_node_pop_at h pre post x hc hd
  refine ⟨hx, ?_⟩
  intro r nr hr hnr hcases
  rw [List.nodup_append] at hd
  obtain ⟨-, hdxp, hdisj⟩ := hd
  have hxpost : x ∉ post := (List.nodup_cons.1 hdxp).1
  have hxpre : x ∉ pre := fun hmem => hdisj hmem (List.mem_cons_self x post)
  have hxout : x ∉ pre ++ post := by
    simp only [List.mem_append]
    rintro (hmem | hmem)
    · exact hxpre hmem
    · exact hxpost hmem
  have hrmem : r ∈ pre ++ post := by
    rw [href] at hr
    rcases List.eq_nil_or_concat pre with rfl | ⟨xs₀, p, rfl⟩
    · simp only [lastOf] at hr
      cases post with
      | nil => simp [headOr] at hr
      | cons q post' =>
        simp only [headOr, Option.some.injEq] at hr
        subst hr
        simp
    · rw [List.concat_eq_append, lastOf_concat] at hr
      simp only [Option.some.injEq] at hr
      subst hr
      simp
  simp only [tree_node_first, hnr]
  rcases hcases with hnone | ⟨q, hq, hch⟩
  · rw [hnone]
    intro heq
    simp only [Option.some.injEq] at heq
    have := firstAux_mem (tree_node_pop h (some x)).1 (pre ++ post) hchain
      (tree_node_pop h (some x)).1.length r hrmem
    rw [heq] at this
    exact hxout this
  · rw [hq]
    exact hch

/-- C4 counterexample: the claim is false on the code in exactly the case
it includes: in the parented chain p → (c1, c2) with cached child_head =
c1, popping c1 advances the reference to c2, and first on c2 consults the
parent's stale child_head and returns the popped node c1. -/
theorem C4_counterexample :
    chainSeg demoParented none ([] ++ 2 :: [3]) none = true ∧
    ([] ++ 2 :: [3] : List Nat).Nodup ∧
    (tree_node_pop demoParented (some 2)).2.1 = some 2 ∧
    (tree_node_pop demoParented (some 2)).2.2 = some 3 ∧
    tree_node_first (tree_node_pop demoParented (some 2)).1 3 = some 2 :=
  ⟨by decide, by decide, by decide, by decide, by decide⟩

/-- Witness for C4 (amended) at the concrete parentless chain 1–2–3,
popping the middle node; the advanced reference is node 1, which has no
parent, and first on it returns node 1, not the popped node 2. -/
theorem C4_pop_then_first_witness :
    chainSeg demoChain3 none ([1] ++ 2 :: [3]) none = true ∧
    ([1] ++ 2 :: [3] : List Nat).Nodup ∧
    tree_node_first (tree_node_pop demoChain3 (some 2)).1 1 ≠ some 2 :=
  ⟨by decide, by decide,
    (C4_pop_then_first demoChain3 [1] [3] 2 (by decide) (by decide)).2 1
      { name := "a", label := none, parent := none, child_head := none,
        next := some 3, previous := none }
      (by decide) (by decide) (Or.inl rfl)⟩

/-- `tree_node_append` writes only `next`/`previous` fields: any
projection ignoring those two fields is unchanged on every node. -/
theorem tree_node_append_proj {α : Type} (g : Node → α)
    (hg : ∀ n v w, g { n with next := v, previous := w } = g n)
    (h : Heap) (l r j : Nat) :
    (hfind (tree_node_append h l r) j).map g = (hfind h j).map g := by
  have hgn : ∀ (n : Node) (v : Option Nat), g { n with next := v } = g n :=
    fun n v => hg n v n.previous
  have hgp : ∀ (n : Node) (w : Option Nat), g { n with previous := w } = g n :=
    fun n w => hg n n.next w
  cases hfl : hfind h l with
  | none => simp [tree_node_append, hfl]
  | some ln =>
    simp only [tree_node_append, hfl]
    rcases hln : ln.next with _ | q <;> simp only [hln]
    · rw [adjust_proj g _ _ _ _ (fun m => hgp m _),
        adjust_proj g _ _ _ _ (fun m => hgn m _)]
    · rw [adjust_proj g _ _ _ _ (fun m => hgp m _),
        adjust_proj g _ _ _ _ (fun m => hgn m _),
        adjust_proj g _ _ _ _ (fun m => hgp m _),
        adjust_proj g _ _ _ _ (fun m => hgn m _)]

/-- Node ids found in the heap are among its keys. -/
theorem hfind_mem_keys (h : Heap) (i : Nat) (n : Node)
    (hf : hfind h i = some n) : i ∈ h.map Prod.fst := by
  induction h with
  | nil => simp [hfind] at hf
  | cons p t ih =>
    obtain ⟨k, m⟩ := p
    simp only [hfind] at hf
    by_cases hik : i = k
    · simp [hik]
    · rw [if_neg hik] at hf
      simp [ih hf]

/-- A duplicate-free list of allocated ids is no longer than the heap. -/
theorem nodup_length_le (h : Heap) (ids : List Nat) (hnd : ids.Nodup)
    (hall : ∀ i ∈ ids, ∃ n, hfind h i = some n) :
    ids.length ≤ h.length := by
  have hsub : ids ⊆ h.map Prod.fst := by
    intro i hi
    obtain ⟨n, hn⟩ := hall i hi
    exact hfind_mem_keys h i n hn
  have := (List.subperm_of_subset hnd hsub).length_le
  simpa using this

/-- The `previous`-walk of `tree_node_first` reaches the head of the chain
whenever the fuel covers the start position. -/
theorem firstAux_head (h : Heap) :
    ∀ (fuel : Nat) (pre post : List Nat) (r hd : Nat),
      chainSeg h none (pre ++ r :: post) none = true →
      (pre ++ r :: post).head? = some hd →
      pre.length ≤ fuel →
      firstAux h fuel r = hd := by
  intro fuel
  induction fuel with
  | zero =>
    intro pre post r hd hc hhd hlen
    have hpre : pre = [] := List.eq_nil_of_length_eq_zero (Nat.le_zero.1 hlen)
    subst hpre
    simp only [List.nil_append, List.head?_cons, Option.some.injEq] at hhd
    simpa [firstAux] using hhd
  | succ fuel ih =>
    intro pre post r hd hc hhd hlen
    have hc' := hc
    rw [chainSeg_append] at hc'
    simp only [Bool.and_eq_true] at hc'
    obtain ⟨-, hc2⟩ := hc'
    obtain ⟨n, hfr, hprev, -, -⟩ := chainSeg_cons h _ _ r post hc2
    rcases List.eq_nil_or_concat pre with rfl | ⟨xs₀, p, rfl⟩
    · simp only [lastOf] at hprev
      simp only [List.nil_append, List.head?_cons, Option.some.injEq] at hhd
      simpa [firstAux, hfr, hprev] using hhd
    · rw [List.concat_eq_append, lastOf_concat] at hprev
      simp only [List.concat_eq_append] at hc hhd hlen
      have heq : (xs₀ ++ [p]) ++ r :: post = xs₀ ++ p :: r :: post := by simp
      rw [heq] at hc hhd
      have hlen' : xs₀.length ≤ fuel := by
        simp at hlen; omega
      have hrec := ih xs₀ (r :: post) p hd hc hhd hlen'
      simp [firstAux, hfr, hprev, hrec]

/-- Introduction form for a non-empty chain segment. -/
theorem chainSeg_cons_intro (h : Heap) (prev after : Option Nat) (x : Nat)
    (rest : List Nat) (n : Node) (hfx : hfind h x = some n)
    (hp : n.previous = prev) (hn : n.next = headOr rest after)
    (hr : chainSeg h (some x) rest after = true) :
    chainSeg h prev (x :: rest) after = true := by
  simp [chainSeg, hfx, hp, hn, hr]

/-- Structural invariant of `Built` chains: the ids form a valid chain
headed by the initial node, are duplicate-free, and every member carries
the common parent link. -/
theorem built_inv (par : Option Nat) (hd : Nat) (h : Heap) (ids : List Nat)
    (hb : Built par hd h ids) :
    chainSeg h none ids none = true ∧ ids.head? = some hd ∧ ids.Nodup ∧
    (∀ i ∈ ids, ∃ n, hfind h i = some n ∧ n.parent = par) := by
  induction hb with
  | base h n hfhd hp hn hpar hne =>
    refine ⟨?_, rfl, List.nodup_singleton hd, ?_⟩
    · simp [chainSeg, hfhd, hp, hn, headOr]
    · intro i hi
      rw [List.mem_singleton] at hi
      subst hi
      exact ⟨n, hfhd, hpar⟩
  | append h pre post left fresh n hb hff hp hn hpar hfout hpfr ih =>
    obtain ⟨hcs, hhd, hnd, hpresent⟩ := ih
    have hcs' := hcs
    rw [chainSeg_append] at hcs'
    simp only [Bool.and_eq_true] at hcs'
    obtain ⟨hcpre, hcrest⟩ := hcs'
    obtain ⟨ln, hfl, hlprev, hlnext, hlrest⟩ :=
      chainSeg_cons h _ _ left post hcrest
    have hnda := List.nodup_append.1 hnd
    have hpostnd : post.Nodup := (List.nodup_cons.1 hnda.2.1).2
    have hlpre : left ∉ pre :=
      fun hm => hnda.2.2 hm (List.mem_cons_self left post)
    have hlpost : left ∉ post := (List.nodup_cons.1 hnda.2.1).1
    have hfpre : fresh ∉ pre := fun hm => hfout (List.mem_append_left _ hm)
    have hfpost : fresh ∉ post :=
      fun hm => hfout (List.mem_append_right _ (List.mem_cons_of_mem _ hm))
    have hfleft : fresh ≠ left := by
      rintro rfl
      exact hfout (List.mem_append_right _ (List.mem_cons_self _ _))
    have hhd' : (pre ++ left :: fresh :: post).head? = some hd := by
      cases pre with
      | nil => simpa using hhd
      | cons a t => simpa using hhd
    have hnd' : (pre ++ left :: fresh :: post).Nodup := by
      have hstep : ((pre ++ [left]) ++ fresh :: post).Nodup := by
        rw [List.nodup_middle, List.nodup_cons]
        refine ⟨?_, by simpa using hnd⟩
        intro hm
        rcases List.mem_append.1 hm with hm | hm
        · rcases List.mem_append.1 hm with hm | hm
          · exact hfpre hm
          · exact hfleft (List.mem_singleton.1 hm)
        · exact hfpost hm
      simpa using hstep
    refine ⟨?_, hhd', hnd', ?_⟩
    · -- the spliced ids again form a valid chain
      rw [chainSeg_append]
      simp only [Bool.and_eq_true]
      cases post with
      | nil =>
        simp only [headOr] at hlnext
        have key : ∀ j, hfind (tree_node_append h left fresh) j =
            if j = fresh then some { n with previous := some left }
            else if j = left then some { ln with next := some fresh }
            else hfind h j := by
          intro j
          simp only [tree_node_append, hfl, hlnext]
          by_cases hjf : j = fresh
          · subst hjf
            simp [hfind_adjust, hff, hfleft]
          · by_cases hjl : j = left
            · subst hjl
              simp [hfind_adjust, hfl, hjf]
            · simp [hfind_adjust, hjf, hjl]
        have hkl := key left
        rw [if_neg (Ne.symm hfleft), if_pos rfl] at hkl
        have hkf := key fresh
        rw [if_pos rfl] at hkf
        constructor
        · have hagree : ∀ i ∈ pre,
              hfind (tree_node_append h left fresh) i = hfind h i := by
            intro i hi
            have hif : ¬ i = fresh := fun e => hfpre (e ▸ hi)
            have hil : ¬ i = left := fun e => hlpre (e ▸ hi)
            rw [key i, if_neg hif, if_neg hil]
          rw [chainSeg_congr h _ _ _ pre hagree]
          simpa [headOr] using hcpre
        · refine chainSeg_cons_intro _ _ none left [fresh] _ hkl hlprev rfl ?_
          refine chainSeg_cons_intro _ _ none fresh [] _ hkf rfl hn rfl
      | cons q post' =>
        simp only [headOr] at hlnext
        have hqf : q ≠ fresh := by
          rintro rfl
          exact hfpost (List.mem_cons_self q post')
        have hql : q ≠ left := by
          rintro rfl
          exact hlpost (List.mem_cons_self q post')
        have hqp' : q ∉ post' := (List.nodup_cons.1 hpostnd).1
        have key : ∀ j, hfind (tree_node_append h left fresh) j =
            if j = fresh then
              some { n with next := some q, previous := some left }
            else if j = left then some { ln with next := some fresh }
            else if j = q then
              (hfind h q).map (fun m => { m with previous := some fresh })
            else hfind h j := by
          intro j
          simp only [tree_node_append, hfl, hlnext]
          by_cases hjf : j = fresh
          · subst hjf
            simp [hfind_adjust, hff, hfleft, Ne.symm hqf]
          · by_cases hjl : j = left
            · subst hjl
              simp [hfind_adjust, hfl, hjf, Ne.symm hql]
            · by_cases hjq : j = q
              · subst hjq
                simp [hfind_adjust, hqf, hql]
              · simp [hfind_adjust, hjf, hjl, hjq]
        have hkl := key left
        rw [if_neg (Ne.symm hfleft), if_pos rfl] at hkl
        have hkf := key fresh
        rw [if_pos rfl] at hkf
        have hkq := key q
        rw [if_neg hqf, if_neg hql, if_pos rfl] at hkq
        constructor
        · have hagree : ∀ i ∈ pre,
              hfind (tree_node_append h left fresh) i = hfind h i := by
            intro i hi
            have hif : ¬ i = fresh := fun e => hfpre (e ▸ hi)
            have hil : ¬ i = left := fun e => hlpre (e ▸ hi)
            have hiq : ¬ i = q := by
              intro e
              subst e
              exact hnda.2.2 hi
                (List.mem_cons_of_mem left (List.mem_cons_self i post'))
            rw [key i, if_neg hif, if_neg hil, if_neg hiq]
          rw [chainSeg_congr h _ _ _ pre hagree]
          simpa [headOr] using hcpre
        · refine chainSeg_cons_intro _ _ none left (fresh :: q :: post') _
            hkl hlprev rfl ?_
          refine chainSeg_cons_intro _ _ none fresh (q :: post') _
            hkf rfl rfl ?_
          refine chainSeg_rehead h _ none q post' (some left) (some fresh)
            hlrest ?_ hkq
          intro i hi
          have hif : ¬ i = fresh :=
            fun e => hfpost (e ▸ List.mem_cons_of_mem q hi)
          have hil : ¬ i = left :=
            fun e => hlpost (e ▸ List.mem_cons_of_mem q hi)
          have hiq : ¬ i = q := fun e => hqp' (e ▸ hi)
          rw [key i, if_neg hif, if_neg hil, if_neg hiq]
    · -- every member, including the fresh one, is allocated with parent par
      intro i hi
      have hold : ∃ m, hfind h i = some m ∧ m.parent = par := by
        have hi' : i ∈ pre ∨ i = left ∨ i = fresh ∨ i ∈ post := by
          simpa using hi
        rcases hi' with hm | rfl | rfl | hm
        · exact hpresent i (List.mem_append_left _ hm)
        · exact hpresent i (List.mem_append_right _ (List.mem_cons_self _ _))
        · exact ⟨n, hff, hpar⟩
        · exact hpresent i
            (List.mem_append_right _ (List.mem_cons_of_mem _ hm))
      obtain ⟨m, hfm, hmp⟩ := hold
      have hmap := tree_node_append_proj Node.parent (fun _ _ _ => rfl)
        h left fresh i
      rw [hfm] at hmap
      cases hmem : hfind (tree_node_append h left fresh) i with
      | none => rw [hmem] at hmap; simp at hmap
      | some n' =>
        rw [hmem] at hmap
        simp only [Option.map_some', Option.some.injEq] at hmap
        exact ⟨n', rfl, hmap.trans hmp⟩

/-- C6: for every chain obtained from an initially single-node chain by a
sequence of append operations, first applied to any node of the chain
returns the same node: the chain's head.  The parented path goes through
the parent's cached child_head (which the data model keeps equal to the
chain head, here a hypothesis on the final heap); the parentless path
walks previous links. -/
theorem C6_first_returns_head (par : Option Nat) (hd : Nat) (h : Heap)
    (ids : List Nat) (hb : Built par hd h ids)
    (hpar : ∀ p, par = some p → (hfind h p).bind Node.child_head = some hd) :
    ∀ x ∈ ids, tree_node_first h x = some hd := by
  obtain ⟨hcs, hhd, hnd, hpresent⟩ := built_inv par hd h ids hb
  intro x hx
  obtain ⟨n, hfx, hnp⟩ := hpresent x hx
  rcases hpc : par with _ | p
  · subst hpc
    simp only [tree_node_first, hfx, hnp]
    obtain ⟨pre, post, hids⟩ := List.append_of_mem hx
    rw [hids] at hcs hhd hnd
    have hlen : pre.length ≤ h.length := by
      have h1 : (pre ++ x :: post).length ≤ h.length := by
        refine nodup_length_le h _ hnd ?_
        intro i hi
        obtain ⟨m, hm, -⟩ := hpresent i (by rw [hids]; exact hi)
        exact ⟨m, hm⟩
      simp only [List.length_append, List.length_cons] at h1
      omega
    rw [firstAux_head h h.length pre post x hd hcs hhd hlen]
  · subst hpc
    simp only [tree_node_first, hfx, hnp]
    exact hpar p rfl

/-- Witness for C6: a two-node chain built by one append of node 6 after
node 5; first returns the head 5 from both nodes. -/
theorem C6_first_returns_head_witness :
    tree_node_first (tree_node_append demoPair 5 6) 6 = some 5 ∧
    tree_node_first (tree_node_append demoPair 5 6) 5 = some 5 := by
  have hb1 : Built (none : Option Nat) 5 demoPair [5] :=
    Built.base demoPair
      { name := "x", label := none, parent := none, child_head := none,
        next := none, previous := none } (by decide) rfl rfl rfl (by decide)
  have hb2 : Built (none : Option Nat) 5 (tree_node_append demoPair 5 6)
      ([] ++ 5 :: 6 :: []) :=
    Built.append demoPair [] [] 5 6
      { name := "y", label := none, parent := none, child_head := none,
        next := none, previous := none } hb1 (by decide) rfl rfl rfl
      (by decide) (by decide)
  have happ := C6_first_returns_head none 5 (tree_node_append demoPair 5 6)
    ([] ++ 5 :: 6 :: []) hb2 (fun p hp => Option.noConfusion hp)
  exact ⟨happ 6 (by decide), happ 5 (by decide)⟩

/-- Full characterization of a successful `tree_node_new` call with a
fresh id and a live (or NULL) parent pointer. -/
theorem tree_node_new_key (h : Heap) (par : Option Nat) (nm : String)
    (fresh : Nat) (hfr : hfind h fresh = none)
    (hpok : parentOk h par = true) (j : Nat) :
    hfind (tree_node_new h par nm fresh true true).1 j =
      (if j = fresh then
        some { name := nm, label := none, parent := par, child_head := none,
               next := none, previous := none }
      else
        match par with
        | none => hfind h j
        | some p =>
          if j = p then
            (hfind h p).map (fun pn =>
              if pn.child_head = none then
                { pn with child_head := some fresh }
              else pn)
          else hfind h j) ∧
    (tree_node_new h par nm fresh true true).2 = some fresh := by
  cases par with
  | none =>
    constructor
    · by_cases hjf : j = fresh
      · subst hjf
        simp [tree_node_new, hfind_hset, hfind_adjust]
      · simp [tree_node_new, hfind_hset, hfind_adjust, hjf]
    · simp [tree_node_new]
  | some p =>
    have hpn : ∃ pn, hfind h p = some pn := by
      simp only [parentOk, ne_eq, decide_eq_true_eq] at hpok
      cases hfp : hfind h p with
      | none => exact absurd hfp hpok
      | some pn => exact ⟨pn, rfl⟩
    obtain ⟨pn, hfp⟩ := hpn
    have hpf : p ≠ fresh := by
      rintro rfl
      rw [hfp] at hfr
      cases hfr
    constructor
    · by_cases hjf : j = fresh
      · subst hjf
        by_cases hch : pn.child_head = none <;>
          simp [tree_node_new, hfind_hset, hfind_adjust, hfp, hpf, hch,
            Ne.symm hpf]
      · by_cases hjp : j = p
        · subst hjp
          by_cases hch : pn.child_head = none <;>
            simp [tree_node_new, hfind_hset, hfind_adjust, hfp, hpf, hjf, hch]
        · by_cases hch : pn.child_head = none <;>
            simp [tree_node_new, hfind_hset, hfind_adjust, hfp, hpf, hjf,
              hjp, hch]
    · by_cases hch : pn.child_head = none <;>
        simp [tree_node_new, hfind_hset, hfind_adjust, hfp, hpf, hch]

/-- `tree_node_new_key` specialized to a root creation. -/
theorem tree_node_new_key_root (h : Heap) (nm : String) (fresh : Nat)
    (hfr : hfind h fresh = none) (j : Nat) :
    hfind (tree_node_new h none nm fresh true true).1 j =
      if j = fresh then
        some { name := nm, label := none, parent := none,
               child_head := none, next := none, previous := none }
      else hfind h j :=
  (tree_node_new_key h none nm fresh hfr rfl j).1

/-- `tree_node_new_key` specialized to creation under a live parent. -/
theorem tree_node_new_key_parent (h : Heap) (p : Nat) (nm : String)
    (fresh : Nat) (hfr : hfind h fresh = none)
    (hpok : parentOk h (some p) = true) (j : Nat) :
    hfind (tree_node_new h (some p) nm fresh true true).1 j =
      if j = fresh then
        some { name := nm, label := none, parent := some p,
               child_head := none, next := none, previous := none }
      else if j = p then
        (hfind h p).map (fun pn =>
          if pn.child_head = none then { pn with child_head := some fresh }
          else pn)
      else hfind h j :=
  (tree_node_new_key h (some p) nm fresh hfr hpok j).1

/-- C10: when tree_node_new fails because the node or its name copy cannot
be allocated, it returns NULL and the parent node is completely unchanged;
on success, parent->child_head is assigned (to the new node) only when it
was previously null, and the new node is returned. -/
theorem C10_new_failure (h : Heap) (p : Nat) (pn : Node) (nm : String)
    (fresh : Nat) (o1 o2 : Bool) (hfp : hfind h p = some pn)
    (hfr : fresh ≠ p) :
    ((o1 = false ∨ o2 = false) →
      (tree_node_new h (some p) nm fresh o1 o2).2 = none ∧
      hfind (tree_node_new h (some p) nm fresh o1 o2).1 p = some pn) ∧
    (o1 = true → o2 = true →
      (tree_node_new h (some p) nm fresh o1 o2).2 = some fresh ∧
      hfind (tree_node_new h (some p) nm fresh o1 o2).1 p =
        some (if pn.child_head = none
          then { pn with child_head := some fresh } else pn)) := by
  constructor
  · intro hfail
    cases o1 with
    | false => simpa [tree_node_new] using hfp
    | true =>
      cases o2 with
      | false =>
        simp [tree_node_new, hfind_hset, Ne.symm hfr, hfp]
      | true => rcases hfail with h1 | h2 <;> simp_all
  · intro ho1 ho2
    subst ho1
    subst ho2
    by_cases hch : pn.child_head = none <;>
      simp [tree_node_new, hfind_hset, hfind_adjust, hfp, hch, Ne.symm hfr,
        hfr]

/-- Witness for C10: a failing and a succeeding creation under the
childless node 5 of the demo heap. -/
theorem C10_new_failure_witness :
    ((tree_node_new demoPair (some 5) "k" 7 true false).2 = none ∧
      hfind (tree_node_new demoPair (some 5) "k" 7 true false).1 5 =
        some { name := "x", label := none, parent := none,
               child_head := none, next := none, previous := none }) ∧
    ((tree_node_new demoPair (some 5) "k" 7 true true).2 = some 7 ∧
      hfind (tree_node_new demoPair (some 5) "k" 7 true true).1 5 =
        some (if ({ name := "x", label := none, parent := none,
                    child_head := none, next := none,
                    previous := none } : Node).child_head = none
          then { ({ name := "x", label := none, parent := none,
                    child_head := none, next := none,
                    previous := none } : Node) with child_head := some 7 }
          else { name := "x", label := none, parent := none,
                 child_head := none, next := none, previous := none })) :=
  ⟨(C10_new_failure demoPair 5
      { name := "x", label := none, parent := none, child_head := none,
        next := none, previous := none } "k" 7 true false
      (by decide) (by decide)).1 (Or.inr rfl),
   (C10_new_failure demoPair 5
      { name := "x", label := none, parent := none, child_head := none,
        next := none, previous := none } "k" 7 true true
      (by decide) (by decide)).2 rfl rfl⟩

/-- Parent links of live nodes survive create/append sequences. -/
theorem exec_parent_stable (ops : List Op) :
    ∀ (h h' : Heap) (c : Nat) (cn : Node),
      exec h ops = some h' → hfind h c = some cn →
      ∃ cn', hfind h' c = some cn' ∧ cn'.parent = cn.parent := by
  induction ops with
  | nil =>
    intro h h' c cn hex hfc
    simp only [exec, Option.some.injEq] at hex
    subst hex
    exact ⟨cn, hfc, rfl⟩
  | cons op ops ih =>
    intro h h' c cn hex hfc
    cases op with
    | append l r =>
      simp only [exec] at hex
      have hmap := tree_node_append_proj Node.parent (fun _ _ _ => rfl) h l r c
      rw [hfc] at hmap
      cases hm : hfind (tree_node_append h l r) c with
      | none => rw [hm] at hmap; simp at hmap
      | some cn2 =>
        rw [hm] at hmap
        simp only [Option.map_some', Option.some.injEq] at hmap
        obtain ⟨cn', h1, h2⟩ := ih _ _ c cn2 hex hm
        exact ⟨cn', h1, h2.trans hmap⟩
    | create par nm fresh =>
      simp only [exec] at hex
      by_cases hcond : (hfind h fresh = none ∧ parentOk h par = true)
      · rw [if_pos hcond] at hex
        obtain ⟨hfr, hpok⟩ := hcond
        have hcf : c ≠ fresh := by
          rintro rfl; rw [hfc] at hfr; cases hfr
        cases par with
        | none =>
          have hkey := tree_node_new_key_root h nm fresh hfr c
          rw [if_neg hcf, hfc] at hkey
          exact ih _ _ c cn hex hkey
        | some p =>
          have hkey := tree_node_new_key_parent h p nm fresh hfr hpok c
          rw [if_neg hcf] at hkey
          by_cases hcp : c = p
          · subst hcp
            rw [if_pos rfl, hfc] at hkey
            simp only [Option.map_some'] at hkey
            obtain ⟨cn', h1, h2⟩ := ih _ _ c _ hex hkey
            refine ⟨cn', h1, ?_⟩
            rw [h2]
            by_cases hch : cn.child_head = none <;> simp [hch]
          · rw [if_neg hcp, hfc] at hkey
            exact ih _ _ c cn hex hkey
      · rw [if_neg hcond] at hex; cases hex

/-- Once a parent's child_head is set, create/append sequences keep it. -/
theorem exec_child_head_keeps (ops : List Op) :
    ∀ (h h' : Heap) (p : Nat) (pn : Node) (c : Nat),
      exec h ops = some h' → hfind h p = some pn →
      pn.child_head = some c →
      ∃ pn', hfind h' p = some pn' ∧ pn'.child_head = some c := by
  induction ops with
  | nil =>
    intro h h' p pn c hex hfp hch
    simp only [exec, Option.some.injEq] at hex
    subst hex
    exact ⟨pn, hfp, hch⟩
  | cons op ops ih =>
    intro h h' p pn c hex hfp hch
    cases op with
    | append l r =>
      simp only [exec] at hex
      have hmap := tree_node_append_proj Node.child_head (fun _ _ _ => rfl)
        h l r p
      rw [hfp] at hmap
      cases hm : hfind (tree_node_append h l r) p with
      | none => rw [hm] at hmap; simp at hmap
      | some pn2 =>
        rw [hm] at hmap
        simp only [Option.map_some', Option.some.injEq] at hmap
        exact ih _ _ p pn2 c hex hm (hmap.trans hch)
    | create par nm fresh =>
      simp only [exec] at hex
      by_cases hcond : (hfind h fresh = none ∧ parentOk h par = true)
      · rw [if_pos hcond] at hex
        obtain ⟨hfr, hpok⟩ := hcond
        have hpf : p ≠ fresh := by
          rintro rfl; rw [hfp] at hfr; cases hfr
        cases par with
        | none =>
          have hkey := tree_node_new_key_root h nm fresh hfr p
          rw [if_neg hpf, hfp] at hkey
          exact ih _ _ p pn c hex hkey hch
        | some q =>
          have hkey := tree_node_new_key_parent h q nm fresh hfr hpok p
          rw [if_neg hpf] at hkey
          by_cases hpq : p = q
          · subst hpq
            rw [if_pos rfl, hfp] at hkey
            simp only [Option.map_some', hch,
              if_neg (Option.some_ne_none c)] at hkey
            exact ih _ _ p pn c hex hkey hch
          · rw [if_neg hpq, hfp] at hkey
            exact ih _ _ p pn c hex hkey hch
      · rw [if_neg hcond] at hex; cases hex

/-- Every child created under `p` by a create/append sequence is still
allocated afterwards, with its parent link equal to `p`. -/
theorem exec_created (ops : List Op) :
    ∀ (h h' : Heap) (p : Nat),
      exec h ops = some h' →
      ∀ c ∈ createdChildren p ops,
        ∃ cn, hfind h' c = some cn ∧ cn.parent = some p := by
  induction ops with
  | nil =>
    intro h h' p hex c hc
    simp [createdChildren] at hc
  | cons op ops ih =>
    intro h h' p hex c hc
    cases op with
    | append l r =>
      simp only [exec] at hex
      simp only [createdChildren] at hc
      exact ih _ _ p hex c hc
    | create par nm fresh =>
      simp only [exec] at hex
      by_cases hcond : (hfind h fresh = none ∧ parentOk h par = true)
      · rw [if_pos hcond] at hex
        obtain ⟨hfr, hpok⟩ := hcond
        cases par with
        | none =>
          simp only [createdChildren] at hc
          exact ih _ _ p hex c hc
        | some q =>
          simp only [createdChildren] at hc
          by_cases hqp : q = p
          · rw [if_pos hqp] at hc
            subst hqp
            rcases List.mem_cons.1 hc with rfl | hc
            · have hkey := tree_node_new_key_parent h q nm c hfr hpok c
              rw [if_pos rfl] at hkey
              obtain ⟨cn', h1, h2⟩ := exec_parent_stable ops _ _ c _ hex hkey
              exact ⟨cn', h1, by rw [h2]⟩
            · exact ih _ _ q hex c hc
          · rw [if_neg hqp] at hc
            exact ih _ _ p hex c hc
      · rw [if_neg hcond] at hex; cases hex

/-- Starting from a childless parent, the cached child_head after a
create/append sequence is exactly the earliest-created child. -/
theorem exec_sets_child_head (ops : List Op) :
    ∀ (h h' : Heap) (p : Nat) (pn : Node),
      exec h ops = some h' → hfind h p = some pn → pn.child_head = none →
      ∃ pn', hfind h' p = some pn' ∧
        pn'.child_head = (createdChildren p ops).head? := by
  induction ops with
  | nil =>
    intro h h' p pn hex hfp hch
    simp only [exec, Option.some.injEq] at hex
    subst hex
    exact ⟨pn, hfp, by simp [createdChildren, hch]⟩
  | cons op ops ih =>
    intro h h' p pn hex hfp hch
    cases op with
    | append l r =>
      simp only [exec] at hex
      have hmap := tree_node_append_proj Node.child_head (fun _ _ _ => rfl)
        h l r p
      rw [hfp] at hmap
      cases hm : hfind (tree_node_append h l r) p with
      | none => rw [hm] at hmap; simp at hmap
      | some pn2 =>
        rw [hm] at hmap
        simp only [Option.map_some', Option.some.injEq] at hmap
        obtain ⟨pn', h1, h2⟩ := ih _ _ p pn2 hex hm (hmap.trans hch)
        exact ⟨pn', h1, by simpa [createdChildren] using h2⟩
    | create par nm fresh =>
      simp only [exec] at hex
      by_cases hcond : (hfind h fresh = none ∧ parentOk h par = true)
      · rw [if_pos hcond] at hex
        obtain ⟨hfr, hpok⟩ := hcond
        have hpf : p ≠ fresh := by
          rintro rfl; rw [hfp] at hfr; cases hfr
        cases par with
        | none =>
          have hkey := tree_node_new_key_root h nm fresh hfr p
          rw [if_neg hpf, hfp] at hkey
          obtain ⟨pn', h1, h2⟩ := ih _ _ p pn hex hkey hch
          exact ⟨pn', h1, by simpa [createdChildren] using h2⟩
        | some q =>
          have hkey := tree_node_new_key_parent h q nm fresh hfr hpok p
          rw [if_neg hpf] at hkey
          by_cases hqp : q = p
          · subst hqp
            rw [if_pos rfl, hfp] at hkey
            simp only [Option.map_some', hch, if_pos] at hkey
            obtain ⟨pn', h1, h2⟩ :=
              exec_child_head_keeps ops _ _ q _ fresh hex hkey rfl
            refine ⟨pn', h1, ?_⟩
            rw [h2]
            simp [createdChildren]
          · rw [if_neg (fun e => hqp (e.symm)), hfp] at hkey
            obtain ⟨pn', h1, h2⟩ := ih _ _ p pn hex hkey hch
            refine ⟨pn', h1, ?_⟩
            rw [h2]
            simp [createdChildren, hqp]
      · rw [if_neg hcond] at hex; cases hex

/-- C2 (amended): after any successful sequence of create and append
operations starting from a childless node p, p's child_head is exactly the
earliest-created child of p and every created child is still allocated
with parent p — so a non-null child_head names the earliest-inserted
still-present child.  pop, however, never writes any child_head field, so
popping the cached head of a parented chain leaves child_head referring
to the removed node (see the counterexample). -/
theorem C2_child_head (ops : List Op) (h h' : Heap) (p : Nat) (pn : Node)
    (hex : exec h ops = some h') (hfp : hfind h p = some pn)
    (hch : pn.child_head = none) :
    (∃ pn', hfind h' p = some pn' ∧
      pn'.child_head = (createdChildren p ops).head? ∧
      ∀ c ∈ createdChildren p ops,
        ∃ cn, hfind h' c = some cn ∧ cn.parent = some p) ∧
    (∀ (g : Heap) (r : Option Nat) (j : Nat),
      (hfind (tree_node_pop g r).1 j).map Node.child_head =
        (hfind g j).map Node.child_head) := by
  constructor
  · obtain ⟨pn', h1, h2⟩ := exec_sets_child_head ops h h' p pn hex hfp hch
    exact ⟨pn', h1, h2, fun c hc => exec_created ops h h' p hex c hc⟩
  · exact fun g r j =>
      tree_node_pop_proj Node.child_head (fun _ _ _ => rfl) g r j

/-- Witness for C2 (amended): running the concrete create/create/append
sequence from the childless root leaves child_head caching the first
created child (id 2), with both children allocated under the root. -/
theorem C2_child_head_witness :
    ∃ hh : Heap, exec demoRoot c2ops = some hh ∧
      ∃ pn', hfind hh 1 = some pn' ∧
        pn'.child_head = (createdChildren 1 c2ops).head? ∧
        ∀ c ∈ createdChildren 1 c2ops,
          ∃ cn, hfind hh c = some cn ∧ cn.parent = some 1 := by
  cases hex : exec demoRoot c2ops with
  | none => exact absurd hex (by decide)
  | some hh =>
    exact ⟨hh, rfl, (C2_child_head c2ops demoRoot hh 1
      { name := "r", label := none, parent := none, child_head := none,
        next := none, previous := none } hex (by decide) rfl).1⟩

/-- C2 counterexample: create children 2 and 3 under node 1 (child_head
caches 2), splice, then pop node 2 from the child chain: the pop succeeds,
the reference advances to 3, the remaining chain is exactly [3], yet
node 1's child_head still names the removed node 2 — not an
earliest-inserted still-present child. -/
theorem C2_counterexample :
    c2afterOps.2.1 = some 2 ∧
    c2afterOps.2.2 = some 3 ∧
    chainSeg c2afterOps.1 none [3] none = true ∧
    (2 ∉ ([3] : List Nat)) ∧
    (hfind c2afterOps.1 1).bind Node.child_head = some 2 := by
  refine ⟨by decide, by decide, by decide, by decide, by decide⟩

theorem headOr_none (l : List Nat) : headOr l none = l.head? := by
  cases l <;> rfl

theorem roots_sublist : ∀ ts : List NTree, List.Sublist (roots ts) (postorder ts) := by
  intro ts
  induction ts with
  | nil =>
    have h1 : postorder ([] : List NTree) = [] := by simp [postorder]
    have h2 : roots ([] : List NTree) = [] := by simp [roots]
    rw [h1, h2]
  | cons t ts ih =>
    obtain ⟨x, cs⟩ := t
    simp only [roots, postorder]
    exact (ih.cons₂ x).trans (List.sublist_append_right _ _)

theorem subIds_subset : ∀ (ts : List NTree) (i : Nat),
    i ∈ subIds ts → i ∈ postorder ts := by
  intro ts
  induction ts with
  | nil => intro i hi; simp [subIds] at hi
  | cons t ts ih =>
    obtain ⟨x, cs⟩ := t
    intro i hi
    simp only [subIds, List.mem_append] at hi
    simp only [postorder, List.mem_append, List.mem_cons]
    rcases hi with hi | hi
    · exact Or.inl hi
    · exact Or.inr (Or.inr (ih i hi))

theorem postorder_perm : ∀ ts : List NTree,
    (postorder ts).Perm (roots ts ++ subIds ts)
  | [] => by simp [postorder, roots, subIds]
  | NTree.node x cs :: ts => by
    simp only [postorder, roots, subIds]
    have h1 : (postorder cs ++ x :: postorder ts).Perm
        (x :: (postorder cs ++ postorder ts)) := List.perm_middle
    have h2 : (postorder cs ++ postorder ts).Perm
        (postorder cs ++ (roots ts ++ subIds ts)) :=
      (postorder_perm ts).append_left _
    have h3 : (postorder cs ++ (roots ts ++ subIds ts)).Perm
        (roots ts ++ (postorder cs ++ subIds ts)) := by
      rw [← List.append_assoc, ← List.append_assoc]
      exact List.perm_append_comm.append_right _
    exact h1.trans ((h2.trans h3).cons x)

/-- Re-establish `reprTrees` under a heap change that preserves the
child_head of every forest node and fully preserves the non-root nodes. -/
theorem reprTrees_congr (h h' : Heap) : ∀ ts : List NTree,
    (∀ i ∈ postorder ts,
      (hfind h' i).map Node.child_head = (hfind h i).map Node.child_head) →
    (∀ i ∈ subIds ts, hfind h' i = hfind h i) →
    reprTrees h ts = true → reprTrees h' ts = true
  | [], _, _, _ => by simp [reprTrees]
  | NTree.node x cs :: ts, hag, hdeep, hr => by
    simp only [reprTrees, Bool.and_eq_true, beq_iff_eq] at hr ⊢
    obtain ⟨⟨⟨hx, hcseg⟩, hrcs⟩, hrts⟩ := hr
    have hxmem : x ∈ postorder (NTree.node x cs :: ts) := by
      simp [postorder]
    have hpcs : ∀ i ∈ postorder cs,
        i ∈ postorder (NTree.node x cs :: ts) := by
      intro i hi
      simp [postorder, hi]
    have hpts : ∀ i ∈ postorder ts,
        i ∈ postorder (NTree.node x cs :: ts) := by
      intro i hi
      simp [postorder, hi]
    have hscs : ∀ i ∈ postorder cs, i ∈ subIds (NTree.node x cs :: ts) := by
      intro i hi
      simp [subIds, hi]
    have hsts : ∀ i ∈ subIds ts, i ∈ subIds (NTree.node x cs :: ts) := by
      intro i hi
      simp [subIds, hi]
    refine ⟨⟨⟨?_, ?_⟩, ?_⟩, ?_⟩
    · rw [hag x hxmem, hx]
    · rw [chainSeg_congr h h' _ _ (roots cs)
        (fun i hi => hdeep i (hscs i ((roots_sublist cs).subset hi)))]
      exact hcseg
    · exact reprTrees_congr h h' cs (fun i hi => hag i (hpcs i hi))
        (fun i hi => hdeep i (hscs i (subIds_subset cs i hi))) hrcs
    · exact reprTrees_congr h h' ts (fun i hi => hag i (hpts i hi))
        (fun i hi => hdeep i (hsts i hi)) hrts

/-- `reprTrees` under a heap change that fully preserves every forest
node. -/
theorem reprTrees_congr_full (h h' : Heap) (ts : List NTree)
    (hagree : ∀ i ∈ postorder ts, hfind h' i = hfind h i) :
    reprTrees h ts = true → reprTrees h' ts = true :=
  reprTrees_congr h h' ts (fun i hi => by rw [hagree i hi])
    (fun i hi => hagree i (subIds_subset ts i hi))

/-- Correctness of `tree_node_free_recursive` on a heap-represented
forest: with enough fuel it succeeds, releases exactly the forest's nodes
in postorder (each node's children before the node), leaves none of them
allocated, and touches nothing else. -/
theorem tnfr_correct : ∀ (fuel : Nat) (h : Heap) (ts : List NTree),
    reprForest h ts = true → (postorder ts).Nodup →
    (postorder ts).length ≤ fuel →
    ∃ h', tree_node_free_recursive fuel h ((roots ts).head?) =
        some (h', postorder ts) ∧
      (∀ i ∈ postorder ts, hfind h' i = none) ∧
      (∀ j, j ∉ postorder ts → hfind h' j = hfind h j) := by
  intro fuel
  induction fuel with
  | zero =>
    intro h ts hr hnd hlen
    cases ts with
    | nil =>
      have hp : postorder ([] : List NTree) = [] := by simp [postorder]
      have hro : roots ([] : List NTree) = [] := by simp [roots]
      refine ⟨h, ?_, ?_, fun j _ => rfl⟩
      · rw [hp, hro]
        rfl
      · intro i hi
        rw [hp] at hi
        cases hi
    | cons t ts' =>
      obtain ⟨x, cs⟩ := t
      rw [show postorder (NTree.node x cs :: ts') =
          postorder cs ++ x :: postorder ts' by simp [postorder]] at hlen
      simp at hlen
  | succ fuel ih =>
    intro h ts hr hnd hlen
    cases ts with
    | nil =>
      have hp : postorder ([] : List NTree) = [] := by simp [postorder]
      have hro : roots ([] : List NTree) = [] := by simp [roots]
      refine ⟨h, ?_, ?_, fun j _ => rfl⟩
      · rw [hp, hro]
        rfl
      · intro i hi
        rw [hp] at hi
        cases hi
    | cons t ts' =>
      obtain ⟨x, cs⟩ := t
      have hpostseq : postorder (NTree.node x cs :: ts') =
          postorder cs ++ x :: postorder ts' := by simp [postorder]
      have hrootseq : roots (NTree.node x cs :: ts') = x :: roots ts' := by
        simp [roots]
      have hnd0 := hnd
      rw [hpostseq] at hnd hlen hnd0
      rw [hpostseq, hrootseq]
      simp only [List.length_append, List.length_cons] at hlen
      -- representation facts
      simp only [reprForest, Bool.and_eq_true] at hr
      obtain ⟨hchain, htrees⟩ := hr
      rw [hrootseq] at hchain
      simp only [reprTrees, Bool.and_eq_true, beq_iff_eq] at htrees
      obtain ⟨⟨⟨hxch, hcseg⟩, hrcs⟩, hrts⟩ := htrees
      obtain ⟨xn, hfx, hxch'⟩ :
          ∃ xn, hfind h x = some xn ∧ xn.child_head = (roots cs).head? := by
        cases hfx : hfind h x with
        | none => rw [hfx] at hxch; simp at hxch
        | some xn =>
          rw [hfx] at hxch
          simp only [Option.map_some', Option.some.injEq] at hxch
          exact ⟨xn, rfl, hxch⟩
      -- duplicate-freeness bookkeeping
      rw [List.nodup_append] at hnd
      obtain ⟨hndcs, hndxts, hdisj⟩ := hnd
      have hxts : x ∉ postorder ts' := (List.nodup_cons.1 hndxts).1
      have hndts : (postorder ts').Nodup := (List.nodup_cons.1 hndxts).2
      have hxcs : x ∉ postorder cs :=
        fun hm => hdisj hm (List.mem_cons_self _ _)
      have hcststs : ∀ i ∈ postorder cs, i ∉ postorder ts' :=
        fun i hi hit => hdisj hi (List.mem_cons_of_mem _ hit)
      have hrts'mem : ∀ i ∈ roots ts', i ∈ postorder ts' :=
        fun i hi => (roots_sublist ts').subset hi
      have hrsub : List.Sublist (x :: roots ts')
          (postorder cs ++ x :: postorder ts') := by
        have h1 := roots_sublist (NTree.node x cs :: ts')
        rw [hrootseq, hpostseq] at h1
        exact h1
      have hndroots : (x :: roots ts').Nodup := hnd0.sublist hrsub
      -- step 1: pop the chain head x
      obtain ⟨hp1, hp2, hp3, hp4, hp5⟩ :=
        tree_node_pop_at h [] (roots ts') x (by simpa using hchain)
          (by simpa using hndroots)
      rcases hpop : tree_node_pop h (some x) with ⟨h1, popped, ref⟩
      rw [hpop] at hp1 hp2 hp3 hp4 hp5
      simp only at hp1 hp2 hp3 hp4 hp5
      subst hp1
      simp only [lastOf] at hp2
      rw [headOr_none] at hp2
      subst hp2
      have hfx1 : hfind h1 x =
          some { xn with next := none, previous := none } := by
        rw [hp3, hfx]
        rfl
      -- step 2: recursively free x's child chain
      have hagree_cs : ∀ i ∈ postorder cs, hfind h1 i = hfind h i := by
        intro i hi
        refine hp5 i ?_
        simp only [List.nil_append, List.mem_cons]
        push_neg
        exact ⟨fun e => hxcs (e ▸ hi),
          fun hm => hcststs i hi (hrts'mem i hm)⟩
      have hcs_repr1 : reprForest h1 cs = true := by
        simp only [reprForest, Bool.and_eq_true]
        constructor
        · rw [chainSeg_congr h h1 _ _ (roots cs)
            (fun i hi => hagree_cs i ((roots_sublist cs).subset hi))]
          exact hcseg
        · exact reprTrees_congr_full h h1 cs hagree_cs hrcs
      have hlencs : (postorder cs).length ≤ fuel := by omega
      obtain ⟨h2, hcall2, her2, hloc2⟩ := ih h1 cs hcs_repr1 hndcs hlencs
      -- step 3: clear child_head and free x
      have hfx2 : hfind h2 x =
          some { xn with next := none, previous := none } := by
        rw [hloc2 x hxcs]
        exact hfx1
      have hfx3 : hfind
          (adjust h2 x (fun m => { m with child_head := none })) x =
          some { xn with child_head := none, next := none, previous := none } := by
        rw [hfind_adjust, if_pos rfl, hfx2]
        rfl
      have hfree : tree_node_free
          (adjust h2 x (fun m => { m with child_head := none })) x =
          some (herase
            (adjust h2 x (fun m => { m with child_head := none })) x) := by
        simp [tree_node_free, hfx3]
      -- step 4: the loop continues on the advanced reference
      have hagree_ts : ∀ i ∈ postorder ts',
          hfind (herase
            (adjust h2 x (fun m => { m with child_head := none })) x) i =
          hfind h1 i := by
        intro i hi
        have hix : ¬ i = x := fun e => hxts (e ▸ hi)
        have hics : i ∉ postorder cs := fun hm => hcststs i hm hi
        rw [hfind_herase, if_neg hix, hfind_adjust, if_neg hix, hloc2 i hics]
      have hts_repr : reprForest (herase
          (adjust h2 x (fun m => { m with child_head := none })) x) ts' =
          true := by
        simp only [reprForest, Bool.and_eq_true]
        constructor
        · rw [chainSeg_congr h1 _ _ _ (roots ts')
            (fun i hi => hagree_ts i (hrts'mem i hi))]
          simpa using hp4
        · have hag1 : ∀ i ∈ postorder ts',
              (hfind h1 i).map Node.child_head =
                (hfind h i).map Node.child_head := by
            intro i _
            have hpr := tree_node_pop_proj Node.child_head
              (fun _ _ _ => rfl) h (some x) i
            rw [hpop] at hpr
            exact hpr
          have hdeep1 : ∀ i ∈ subIds ts', hfind h1 i = hfind h i := by
            intro i hi
            have hip : i ∈ postorder ts' := subIds_subset ts' i hi
            refine hp5 i ?_
            simp only [List.nil_append, List.mem_cons]
            push_neg
            refine ⟨fun e => hxts (e ▸ hip), ?_⟩
            intro hroot
            have hsplit : (roots ts' ++ subIds ts').Nodup :=
              (postorder_perm ts').nodup_iff.1 hndts
            rw [List.nodup_append] at hsplit
            exact hsplit.2.2 hroot hi
          have h1trees : reprTrees h1 ts' = true :=
            reprTrees_congr h h1 ts' hag1 hdeep1 hrts
          exact reprTrees_congr_full h1 _ ts' hagree_ts h1trees
      have hlents : (postorder ts').length ≤ fuel := by omega
      obtain ⟨h5, hcall5, her5, hloc5⟩ := ih
        (herase (adjust h2 x (fun m => { m with child_head := none })) x)
        ts' hts_repr hndts hlents
      -- assemble the computation
      have hcomp : tree_node_free_recursive (fuel + 1) h (some x) =
          some (h5, postorder cs ++ x :: postorder ts') := by
        simp only [tree_node_free_recursive, hpop, hfx1, hxch', hcall2,
          hfree, hcall5]
      refine ⟨h5, by simpa using hcomp, ?_, ?_⟩
      · intro i hi
        rcases List.mem_append.1 hi with hi | hi
        · have h2i := her2 i hi
          have hix : ¬ i = x := fun e => hxcs (e ▸ hi)
          have h4i : hfind (herase
              (adjust h2 x (fun m => { m with child_head := none })) x) i =
              none := by
            rw [hfind_herase, if_neg hix, hfind_adjust, if_neg hix, h2i]
          rw [hloc5 i (fun hm => hcststs i hi hm), h4i]
        · rcases List.mem_cons.1 hi with rfl | hi
          · have h4x : hfind (herase
                (adjust h2 i (fun m => { m with child_head := none })) i) i =
                none := by
              rw [hfind_herase, if_pos rfl]
            rw [hloc5 i hxts, h4x]
          · exact her5 i hi
      · intro j hj
        simp only [List.mem_append, List.mem_cons] at hj
        push_neg at hj
        obtain ⟨hjcs, hjx, hjts⟩ := hj
        rw [hloc5 j hjts]
        have h4j : hfind (herase
            (adjust h2 x (fun m => { m with child_head := none })) x) j =
            hfind h1 j := by
          rw [hfind_herase, if_neg hjx, hfind_adjust, if_neg hjx,
            hloc2 j hjcs]
        rw [h4j]
        refine hp5 j ?_
        simp only [List.nil_append, List.mem_cons]
        push_neg
        exact ⟨hjx, fun hm => hjts (hrts'mem j hm)⟩

/-- C7: tree_node_free_recursive on a null (empty) chain is a no-op, and
on a heap-laid-out forest of N nodes it releases exactly the N nodes of
the forest — the released list is the postorder traversal, so each node's
child chain is fully released before the node itself — after which none of
the forest's nodes is allocated (no node of the input remains reachable),
while every other node is untouched. -/
theorem C7_free_recursive :
    (∀ (fuel : Nat) (h : Heap),
      tree_node_free_recursive fuel h none = some (h, [])) ∧
    (∀ (fuel : Nat) (h : Heap) (ts : List NTree),
      reprForest h ts = true → (postorder ts).Nodup →
      (postorder ts).length ≤ fuel →
      ∃ h', tree_node_free_recursive fuel h ((roots ts).head?) =
          some (h', postorder ts) ∧
        (∀ i ∈ postorder ts, hfind h' i = none) ∧
        (∀ j, j ∉ postorder ts → hfind h' j = hfind h j)) := by
  refine ⟨fun fuel h => ?_, tnfr_correct⟩
  cases fuel <;> rfl

/-- Witness for C7 at the parent-with-two-children heap: freeing the
whole tree releases [2, 3, 1] — children before parent — and empties the
heap of those nodes. -/
theorem C7_free_recursive_witness :
    reprForest demoParented
      [NTree.node 1 [NTree.node 2 [], NTree.node 3 []]] = true ∧
    (postorder [NTree.node 1 [NTree.node 2 [], NTree.node 3 []]]).Nodup ∧
    ∃ h', tree_node_free_recursive 3 demoParented
        ((roots [NTree.node 1 [NTree.node 2 [], NTree.node 3 []]]).head?) =
        some (h', postorder [NTree.node 1 [NTree.node 2 [], NTree.node 3 []]]) ∧
      (∀ i ∈ postorder [NTree.node 1 [NTree.node 2 [], NTree.node 3 []]],
        hfind h' i = none) ∧
      (∀ j, j ∉ postorder [NTree.node 1 [NTree.node 2 [], NTree.node 3 []]] →
        hfind h' j = hfind demoParented j) := by
  have hpost : postorder [NTree.node 1 [NTree.node 2 [], NTree.node 3 []]] =
      [2, 3, 1] := by
    simp [postorder]
  have h1 : reprForest demoParented
      [NTree.node 1 [NTree.node 2 [], NTree.node 3 []]] = true := by
    simp only [reprForest, reprTrees, roots]
    decide
  refine ⟨h1, ?_, ?_⟩
  · rw [hpost]
    decide
  · exact C7_free_recursive.2 3 demoParented _ h1 (by rw [hpost]; decide)
      (by rw [hpost]; decide)

theorem label_eta (n : Node) (hl : n.label = none) :
    { n with label := none } = n := by
  cases n
  simp_all

theorem nextChainB_find (h : Heap) : ∀ ids : List Nat,
    nextChainB h ids = true → ∀ i ∈ ids, ∃ n, hfind h i = some n := by
  intro ids
  induction ids with
  | nil => intro _ i hi; cases hi
  | cons i rest ih =>
    intro hc j hj
    simp only [nextChainB] at hc
    cases hfi : hfind h i with
    | none => rw [hfi] at hc; cases hc
    | some n =>
      rw [hfi] at hc
      simp only [Bool.and_eq_true] at hc
      rcases List.mem_cons.1 hj with rfl | hj
      · exact ⟨n, hfi⟩
      · exact ih hc.2 j hj

theorem nextChainB_congr (h h' : Heap) : ∀ ids : List Nat,
    (∀ i ∈ ids, hfind h' i = hfind h i) →
    nextChainB h' ids = nextChainB h ids := by
  intro ids
  induction ids with
  | nil => intro _; rfl
  | cons i rest ih =>
    intro hag
    simp only [nextChainB]
    rw [hag i (List.mem_cons_self _ _)]
    cases hfind h i with
    | none => rfl
    | some n => rw [ih (fun j hj => hag j (List.mem_cons_of_mem _ hj))]

theorem walkNexts_eq (h : Heap) : ∀ (ids : List Nat) (fuel : Nat),
    nextChainB h ids = true → ids.length ≤ fuel →
    walkNexts h fuel ids.head? = ids := by
  intro ids
  induction ids with
  | nil => intro fuel _ _; cases fuel <;> rfl
  | cons i rest ih =>
    intro fuel hc hlen
    cases fuel with
    | zero => simp at hlen
    | succ fuel =>
      simp only [nextChainB] at hc
      cases hfi : hfind h i with
      | none => rw [hfi] at hc; cases hc
      | some n =>
        rw [hfi] at hc
        simp only [Bool.and_eq_true, beq_iff_eq] at hc
        obtain ⟨hnx, hrest⟩ := hc
        simp only [List.head?_cons, walkNexts, hfi]
        rw [hnx, headOr_none, ih fuel hrest (by simp at hlen; omega)]

theorem buildItems_local (o : Nat → Bool) : ∀ (ids : List Nat) (h : Heap)
    (k : Nat) (j : Nat), j ∉ ids →
    hfind ((buildItems o h k ids).heap) j = hfind h j := by
  intro ids
  induction ids with
  | nil => intro h k j _; rfl
  | cons i rest ih =>
    intro h k j hj
    have hji : ¬ j = i := fun e => hj (e ▸ List.mem_cons_self _ _)
    have hjr : j ∉ rest := fun hm => hj (List.mem_cons_of_mem _ hm)
    cases hfi : hfind h i with
    | none => simp [buildItems, hfi, BuildRes.heap]
    | some n =>
      cases hch : n.child_head with
      | none =>
        simp only [buildItems, hfi, hch]
        have hrec := ih h (k + 1) j hjr
        cases hb : buildItems o h (k + 1) rest with
        | ok h2 k2 entries =>
          rw [hb] at hrec
          simpa [BuildRes.heap] using hrec
        | nomem h2 k2 =>
          rw [hb] at hrec
          simpa [BuildRes.heap] using hrec
        | assertFailed h2 k2 =>
          rw [hb] at hrec
          simpa [BuildRes.heap] using hrec
      | some c =>
        simp only [buildItems, hfi, hch]
        by_cases hl : n.label ≠ none
        · simp [if_pos hl, BuildRes.heap]
        · simp only [if_neg hl, Bool.false_eq_true, if_false]
          cases hok : o k with
          | false => simp [BuildRes.heap]
          | true =>
            simp only [if_pos rfl, Bool.true_eq_false]
            have hadj : hfind (adjust h i
                (fun m => { m with label := some ("+" ++ n.name) })) j =
                hfind h j := by
              rw [hfind_adjust, if_neg hji]
            have hrec := ih (adjust h i
              (fun m => { m with label := some ("+" ++ n.name) }))
              (k + 2) j hjr
            cases hb : buildItems o (adjust h i
                (fun m => { m with label := some ("+" ++ n.name) }))
                (k + 2) rest with
            | ok h2 k2 entries =>
              rw [hb] at hrec
              rw [hadj] at hrec
              simpa [hb, BuildRes.heap] using hrec
            | nomem h2 k2 =>
              rw [hb] at hrec
              rw [hadj] at hrec
              simpa [hb, BuildRes.heap] using hrec
            | assertFailed h2 k2 =>
              rw [hb] at hrec
              rw [hadj] at hrec
              simpa [hb, BuildRes.heap] using hrec

theorem buildItems_strip (o : Nat → Bool) : ∀ (ids : List Nat) (h : Heap)
    (k : Nat) (j : Nat),
    (hfind ((buildItems o h k ids).heap) j).map stripLabel =
      (hfind h j).map stripLabel := by
  intro ids
  induction ids with
  | nil => intro h k j; rfl
  | cons i rest ih =>
    intro h k j
    cases hfi : hfind h i with
    | none => simp [buildItems, hfi, BuildRes.heap]
    | some n =>
      cases hch : n.child_head with
      | none =>
        simp only [buildItems, hfi, hch]
        have hrec := ih h (k + 1) j
        cases hb : buildItems o h (k + 1) rest with
        | ok h2 k2 entries =>
          rw [hb] at hrec
          simpa [BuildRes.heap] using hrec
        | nomem h2 k2 =>
          rw [hb] at hrec
          simpa [BuildRes.heap] using hrec
        | assertFailed h2 k2 =>
          rw [hb] at hrec
          simpa [BuildRes.heap] using hrec
      | some c =>
        simp only [buildItems, hfi, hch]
        by_cases hl : n.label ≠ none
        · simp [if_pos hl, BuildRes.heap]
        · simp only [if_neg hl, Bool.false_eq_true, if_false]
          cases hok : o k with
          | false => simp [BuildRes.heap]
          | true =>
            simp only [if_pos rfl, Bool.true_eq_false]
            have hadj : (hfind (adjust h i
                (fun m => { m with label := some ("+" ++ n.name) })) j).map
                  stripLabel = (hfind h j).map stripLabel :=
              adjust_proj stripLabel h i _ j (fun m => rfl)
            have hrec := ih (adjust h i
              (fun m => { m with label := some ("+" ++ n.name) }))
              (k + 2) j
            cases hb : buildItems o (adjust h i
                (fun m => { m with label := some ("+" ++ n.name) }))
                (k + 2) rest with
            | ok h2 k2 entries =>
              rw [hb] at hrec
              rw [hadj] at hrec
              simpa [hb, BuildRes.heap] using hrec
            | nomem h2 k2 =>
              rw [hb] at hrec
              rw [hadj] at hrec
              simpa [hb, BuildRes.heap] using hrec
            | assertFailed h2 k2 =>
              rw [hb] at hrec
              rw [hadj] at hrec
              simpa [hb, BuildRes.heap] using hrec

/-- With every allocation succeeding and no stale labels on the
children-bearing chain nodes, the building loop succeeds and produces
exactly one item per node, each carrying the node's pointer and the
"+"-marked display text; only the labels of children-bearing chain nodes
are written. -/
theorem buildItems_spec : ∀ (ids : List Nat) (h : Heap) (k : Nat),
    nextChainB h ids = true → ids.Nodup →
    (∀ i n, i ∈ ids → hfind h i = some n → n.child_head ≠ none →
      n.label = none) →
    ∃ h' k', buildItems (fun _ => true) h k ids =
        BuildRes.ok h' k' (ids.map (fun i => some (mkItem h i))) ∧
      (∀ j, j ∉ ids → hfind h' j = hfind h j) ∧
      (∀ j n, j ∈ ids → hfind h j = some n →
        hfind h' j = some (if n.child_head = none then n
          else { n with label := some ("+" ++ n.name) })) := by
  intro ids
  induction ids with
  | nil =>
    intro h k _ _ _
    exact ⟨h, k, by simp [buildItems], fun j _ => rfl,
      fun j n hj => absurd hj (List.not_mem_nil j)⟩
  | cons i rest ih =>
    intro h k hc hnd hlab
    simp only [nextChainB] at hc
    cases hfi : hfind h i with
    | none => rw [hfi] at hc; cases hc
    | some n =>
      rw [hfi] at hc
      simp only [Bool.and_eq_true, beq_iff_eq] at hc
      obtain ⟨hnx, hrest⟩ := hc
      have hir : i ∉ rest := (List.nodup_cons.1 hnd).1
      have hndr : rest.Nodup := (List.nodup_cons.1 hnd).2
      cases hch : n.child_head with
      | none =>
        obtain ⟨h', k', hb, hlocal, hmem⟩ := ih h (k + 1) hrest hndr
          (fun j m hj hm => hlab j m (List.mem_cons_of_mem _ hj) hm)
        refine ⟨h', k', ?_, ?_, ?_⟩
        · simp only [buildItems, hfi, hch, hb, List.map_cons]
          simp [mkItem, hfi, hch]
        · intro j hj
          exact hlocal j (fun hm => hj (List.mem_cons_of_mem _ hm))
        · intro j m hj hm
          rcases List.mem_cons.1 hj with rfl | hj
          · rw [hfi] at hm
            injection hm with hm
            subst hm
            rw [hlocal j hir, hfi, if_pos hch]
          · exact hmem j m hj hm
      | some c =>
        have hlabi : n.label = none :=
          hlab i n (List.mem_cons_self _ _) hfi (by rw [hch]; simp)
        have hagree : ∀ j ∈ rest, hfind (adjust h i
            (fun m => { m with label := some ("+" ++ n.name) })) j =
            hfind h j := by
          intro j hj
          have hji : ¬ j = i := by
            intro e
            subst e
            exact hir hj
          rw [hfind_adjust, if_neg hji]
        obtain ⟨h', k', hb, hlocal, hmem⟩ := ih
          (adjust h i (fun m => { m with label := some ("+" ++ n.name) }))
          (k + 2)
          (by rw [nextChainB_congr h _ rest hagree]; exact hrest)
          hndr
          (fun j m hj hm => hlab j m (List.mem_cons_of_mem _ hj)
            (by rw [← hagree j hj]; exact hm))
        have hmapeq : rest.map (fun j => some (mkItem (adjust h i
            (fun m => { m with label := some ("+" ++ n.name) })) j)) =
            rest.map (fun j => some (mkItem h j)) := by
          refine List.map_congr_left ?_
          intro j hj
          unfold mkItem
          rw [hagree j hj]
        refine ⟨h', k', ?_, ?_, ?_⟩
        · simp only [buildItems, hfi, hch]
          rw [if_neg (by simp [hlabi])]
          simp only [if_pos rfl, hb, hmapeq, List.map_cons]
          simp [mkItem, hfi, hch]
        · intro j hj
          have hji : ¬ j = i := fun e => hj (e ▸ List.mem_cons_self _ _)
          rw [hlocal j (fun hm => hj (List.mem_cons_of_mem _ hm)),
            hfind_adjust, if_neg hji]
        · intro j m hj hm
          rcases List.mem_cons.1 hj with rfl | hj
          · rw [hfi] at hm
            injection hm with hm
            subst hm
            rw [hlocal j hir, hfind_adjust, if_pos rfl, hfi]
            simp [hch]
          · rw [hmem j m hj (by rw [hagree j hj]; exact hm)]

/-- A successful building pass over a chain implies every children-bearing
chain node had a null label when it was visited: the `SMB_ASSERT` was
checked, and passed, before each fresh label was derived. -/
theorem buildItems_ok_necessary : ∀ (ids : List Nat) (h : Heap) (k : Nat),
    nextChainB h ids = true → ids.Nodup →
    ∀ h' k' entries, buildItems (fun _ => true) h k ids =
      BuildRes.ok h' k' entries →
    ∀ i n, i ∈ ids → hfind h i = some n → n.child_head ≠ none →
      n.label = none := by
  intro ids
  induction ids with
  | nil => intro h k _ _ h' k' entries _ i n hi; cases hi
  | cons i rest ih =>
    intro h k hc hnd h' k' entries hres j m hj hm hmch
    simp only [nextChainB] at hc
    cases hfi : hfind h i with
    | none => rw [hfi] at hc; cases hc
    | some n =>
      rw [hfi] at hc
      simp only [Bool.and_eq_true, beq_iff_eq] at hc
      obtain ⟨hnx, hrest⟩ := hc
      have hir : i ∉ rest := (List.nodup_cons.1 hnd).1
      have hndr : rest.Nodup := (List.nodup_cons.1 hnd).2
      cases hch : n.child_head with
      | none =>
        simp only [buildItems, hfi, hch] at hres
        rcases List.mem_cons.1 hj with rfl | hj
        · rw [hfi] at hm
          injection hm with hm
          subst hm
          rw [hch] at hmch
          exact absurd rfl hmch
        · cases hb : buildItems (fun _ => true) h (k + 1) rest with
          | ok h2 k2 es =>
            exact ih h (k + 1) hrest hndr h2 k2 es hb j m hj hm hmch
          | nomem h2 k2 =>
            simp only [hb] at hres
            cases hres
          | assertFailed h2 k2 =>
            simp only [hb] at hres
            cases hres
      | some c =>
        simp only [buildItems, hfi, hch] at hres
        by_cases hl : n.label = none
        · rw [if_neg (by simp [hl])] at hres
          rcases List.mem_cons.1 hj with rfl | hj
          · rw [hfi] at hm
            injection hm with hm
            subst hm
            exact hl
          · have hagree : ∀ x ∈ rest, hfind (adjust h i
                (fun m => { m with label := some ("+" ++ n.name) })) x =
                hfind h x := by
              intro x hx
              have hxi : ¬ x = i := by
                intro e
                subst e
                exact hir hx
              rw [hfind_adjust, if_neg hxi]
            cases hb : buildItems (fun _ => true)
                (adjust h i
                  (fun m => { m with label := some ("+" ++ n.name) }))
                (k + 2) rest with
            | ok h2 k2 es =>
              exact ih _ (k + 2)
                (by rw [nextChainB_congr h _ rest hagree]; exact hrest)
                hndr h2 k2 es hb j m hj
                (by rw [hagree j hj]; exact hm) hmch
            | nomem h2 k2 =>
              simp only [hb] at hres
              cases hres
            | assertFailed h2 k2 =>
              simp only [hb] at hres
              cases hres
        · rw [if_pos (by simp [hl])] at hres
          cases hres

/-- Pointwise effect of one release step of
`tree_view_free_current_items`. -/
theorem freeStep_find (h : Heap) (it : Item) (j : Nat) :
    hfind (freeStep h it) j =
      if it.userptr = some j then
        (hfind h j).map (fun n => { n with label := none })
      else hfind h j := by
  cases hup : it.userptr with
  | none => simp [freeStep, hup]
  | some u =>
    by_cases hju : u = j
    · subst hju
      cases hfu : hfind h u with
      | none => simp [freeStep, hup, hfu]
      | some n =>
        by_cases hl : n.label ≠ none
        · simp [freeStep, hup, hfu, hl, hfind_adjust]
        · push_neg at hl
          simp [freeStep, hup, hfu, hl, label_eta n hl]
    · rw [if_neg (show ¬ (some u : Option Nat) = some j by simp [hju])]
      have hju' : ¬ j = u := fun e => hju e.symm
      cases hfu : hfind h u with
      | none => simp [freeStep, hup, hfu]
      | some n =>
        by_cases hl : n.label ≠ none
        · simp [freeStep, hup, hfu, hl, hfind_adjust, hju']
        · simp [freeStep, hup, hfu, hl]

/-- Pointwise effect of the `tree_view_free_current_items` release loop on
a fully built item array: the nodes referenced by the items get their
labels cleared; everything else is untouched. -/
theorem freeItemsLoop_find : ∀ (its : List Item) (h : Heap) (j : Nat),
    hfind (freeItemsLoop h (its.map some ++ [none])) j =
      if j ∈ its.filterMap Item.userptr then
        (hfind h j).map (fun n => { n with label := none })
      else hfind h j := by
  intro its
  induction its with
  | nil =>
    intro h j
    have h1 : freeItemsLoop h (([] : List Item).map some ++ [none]) = h := rfl
    rw [h1]
    simp
  | cons it rest ih =>
    intro h j
    have hloop : freeItemsLoop h ((it :: rest).map some ++ [none]) =
        freeItemsLoop (freeStep h it) (rest.map some ++ [none]) := rfl
    rw [hloop, ih, freeStep_find]
    cases hup : it.userptr with
    | none =>
      simp only [List.filterMap_cons, hup]
      by_cases hjr : j ∈ rest.filterMap Item.userptr <;> simp [hjr]
    | some u =>
      simp only [List.filterMap_cons, hup]
      by_cases hju : u = j
      · have h1 : (some u : Option Nat) = some j := by rw [hju]
        have h2 : j ∈ u :: rest.filterMap Item.userptr := by
          rw [hju]
          exact List.mem_cons_self _ _
        by_cases hjr : j ∈ rest.filterMap Item.userptr
        · rw [if_pos hjr, if_pos h1, if_pos h2]
          cases hfind h j <;> rfl
        · rw [if_neg hjr, if_pos h1, if_pos h2]
      · have h1 : ¬ ((some u : Option Nat) = some j) := by simp [hju]
        have h2 : (j ∈ u :: rest.filterMap Item.userptr) ↔
            j ∈ rest.filterMap Item.userptr := by
          constructor
          · intro hm
            rcases List.mem_cons.1 hm with he | hm
            · exact absurd he.symm hju
            · exact hm
          · exact fun hm => List.mem_cons_of_mem _ hm
        by_cases hjr : j ∈ rest.filterMap Item.userptr
        · rw [if_pos hjr, if_neg h1, if_pos (h2.2 hjr)]
        · rw [if_neg hjr, if_neg h1, if_neg (fun hm => hjr (h2.1 hm))]


theorem hfind_mem_pair (h : Heap) (i : Nat) (n : Node)
    (hf : hfind h i = some n) : (i, n) ∈ h := by
  induction h with
  | nil => simp [hfind] at hf
  | cons p t ih =>
    obtain ⟨a, m⟩ := p
    simp only [hfind] at hf
    by_cases hik : i = a
    · subst hik
      rw [if_pos rfl] at hf
      injection hf with hf
      subst hf
      exact List.mem_cons_self _ _
    · rw [if_neg hik] at hf
      exact List.mem_cons_of_mem _ (ih hf)

/-- Dropping the NULL slots of a fully built posted array recovers the
items. -/
theorem posted_filterMap (L : List Item) :
    (L.map some ++ [(none : Option Item)]).filterMap id = L := by
  induction L with
  | nil => rfl
  | cons a t ih => simp [List.filterMap_cons, ih]

/-- The user pointers of the items a successful update builds for a chain
are exactly the chain's node ids, in order. -/
theorem mkItem_ptrs (h : Heap) : ∀ ids : List Nat,
    (∀ i ∈ ids, ∃ n, hfind h i = some n) →
    (ids.map (mkItem h)).filterMap Item.userptr = ids := by
  intro ids
  induction ids with
  | nil => intro _; rfl
  | cons i rest ih =>
    intro hall
    obtain ⟨n, hn⟩ := hall i (List.mem_cons_self _ _)
    have h1 : (mkItem h i).userptr = some i := by simp [mkItem, hn]
    simp only [List.map_cons, List.filterMap_cons, h1]
    rw [ih (fun j hj => hall j (List.mem_cons_of_mem _ hj))]

/-- Decidable form of the building loop's assertion precondition: a stored
node either has no children or has no cached label. -/
theorem labels_ok_of_all (h : Heap) (ids : List Nat)
    (hlab : ∀ i ∈ ids, ((hfind h i).all
      (fun n => n.child_head == none || n.label == none)) = true) :
    ∀ i n, i ∈ ids → hfind h i = some n → n.child_head ≠ none →
      n.label = none := by
  intro i n hi hf hch
  have hx := hlab i hi
  rw [hf] at hx
  simp only [Option.all_some, Bool.or_eq_true, beq_iff_eq] at hx
  rcases hx with hc | hl
  · exact absurd hc hch
  · exact hl

/-- A duplicate-free forward chain is no longer than the heap. -/
theorem chain_length_le (h : Heap) (ids : List Nat)
    (hc : nextChainB h ids = true) (hnd : ids.Nodup) :
    ids.length ≤ h.length :=
  nodup_length_le h ids hnd (nextChainB_find h ids hc)

/-- The counting walk of `tree_view_update` recovers a well-formed forward
chain exactly. -/
theorem chain_walk (h : Heap) (x : Nat) (rest : List Nat)
    (hc : nextChainB h (x :: rest) = true) (hnd : (x :: rest).Nodup) :
    walkNexts h h.length (some x) = x :: rest := by
  have hw := walkNexts_eq h (x :: rest) h.length hc
    (chain_length_le h _ hc hnd)
  simpa using hw

/-- C1: on a well-formed non-empty chain with every allocation succeeding
and the label assertion satisfiable, update succeeds and posts exactly one
item per chain node, in chain order; each item's user pointer is its node's
id and its display text is the node name, "+"-prefixed exactly when the
node has a child_head; a null chain argument defaults to the view's root
chain. -/
theorem C1_update_posts_chain (h : Heap) (v : TreeView) (x : Nat)
    (rest : List Nat) (k : Nat)
    (hc : nextChainB h (x :: rest) = true)
    (hnd : (x :: rest).Nodup)
    (hlab : ∀ i ∈ x :: rest, ((hfind h i).all
      (fun n => n.child_head == none || n.label == none)) = true) :
    (tree_view_update (fun _ => true) h v (some x) k).2.2.2 = WError.ok ∧
    (tree_view_update (fun _ => true) h v (some x) k).2.1 =
      { root := v.root, current_items :=
        some ((x :: rest).map (fun i => some (mkItem h i)) ++ [none]) } ∧
    itemsOf (tree_view_update (fun _ => true) h v (some x) k).2.1 =
      (x :: rest).map (mkItem h) ∧
    (itemsOf (tree_view_update (fun _ => true) h v (some x) k).2.1).length =
      (x :: rest).length ∧
    (∀ idx : Nat,
      (itemsOf (tree_view_update (fun _ => true) h v (some x) k).2.1)[idx]? =
        ((x :: rest)[idx]?).map (mkItem h)) ∧
    (∀ j n, j ∈ x :: rest → hfind h j = some n →
      mkItem h j = { display := if n.child_head = none then n.name
          else "+" ++ n.name, descr := n.name, userptr := some j }) ∧
    (∀ (o : Nat → Bool) (g : Heap) (w : TreeView) (k2 : Nat),
      tree_view_update o g w none k2 = tree_view_update o g w w.root k2) := by
  have hids := chain_walk h x rest hc hnd
  obtain ⟨h', k', hb, hlocal, hmem⟩ :=
    buildItems_spec (x :: rest) h (k + 1) hc hnd (labels_ok_of_all h _ hlab)
  have hupd : tree_view_update (fun _ => true) h v (some x) k =
      ((tree_view_free_current_items h' v).1,
        { root := (tree_view_free_current_items h' v).2.root,
          current_items :=
            some ((x :: rest).map (fun i => some (mkItem h i)) ++ [none]) },
        k', WError.ok) := by
    simp only [tree_view_update, hids, hb, if_true]
  have hview : (tree_view_update (fun _ => true) h v (some x) k).2.1 =
      { root := v.root, current_items :=
        some ((x :: rest).map (fun i => some (mkItem h i)) ++ [none]) } := by
    rw [hupd]
    cases hcv : v.current_items <;>
      simp [tree_view_free_current_items, hcv]
  have hmap2 : (x :: rest).map (fun i => some (mkItem h i)) =
      ((x :: rest).map (mkItem h)).map some := by
    simp [List.map_map, Function.comp]
  have hitems : itemsOf (tree_view_update (fun _ => true) h v
      (some x) k).2.1 = (x :: rest).map (mkItem h) := by
    rw [hview]
    simp only [itemsOf]
    rw [hmap2, posted_filterMap]
  refine ⟨by rw [hupd], hview, hitems, by rw [hitems]; simp, ?_, ?_, ?_⟩
  · intro idx
    rw [hitems, List.getElem?_map]
  · intro j n hj hf
    simp [mkItem, hf]
  · intro o g w k2
    cases hwr : w.root <;> simp [tree_view_update, hwr]

/-- Witness for C1: the three-node chain 1-2-3 of leaves, posted into a
fresh view, with the hypotheses discharged by computation. -/
theorem C1_update_posts_chain_witness :
    nextChainB demoChain3 [1, 2, 3] = true ∧
    ([1, 2, 3] : List Nat).Nodup ∧
    (∀ i ∈ ([1, 2, 3] : List Nat), ((hfind demoChain3 i).all
      (fun n => n.child_head == none || n.label == none)) = true) ∧
    (tree_view_update (fun _ => true) demoChain3
      { root := some 1, current_items := none } (some 1) 0).2.2.2 =
      WError.ok :=
  ⟨by decide, by decide, by decide,
    (C1_update_posts_chain demoChain3
      { root := some 1, current_items := none } 1 [2, 3] 0 (by decide)
      (by decide) (by decide)).1⟩

/-- C3 (amended): in the a/b/c scenario with b's child b1, the first
update posts "a","+b","c" and caches b's label "+b"; the second update
(b's child chain) posts the single item "b1" — but its release pass frees
the previously posted labels, so b's label is NULL afterwards, not "+b". -/
theorem C3_scenario :
    c3step1.2.2.2 = WError.ok ∧
    postedDisplays c3step1.2.1 = ["a", "+b", "c"] ∧
    (hfind c3step1.1 2).map Node.label = some (some "+b") ∧
    c3step2.2.2.2 = WError.ok ∧
    postedDisplays c3step2.2.1 = ["b1"] ∧
    (hfind c3step2.1 2).map Node.label = some none := by
  decide

/-- C3 counterexample: the claimed final state — b's label still "+b"
after the second update — is false; the second update's release of the
previously posted items resets it to NULL. -/
theorem C3_counterexample :
    postedDisplays c3step1.2.1 = ["a", "+b", "c"] ∧
    postedDisplays c3step2.2.1 = ["b1"] ∧
    ¬ (hfind c3step2.1 2).map Node.label = some (some "+b") := by
  decide

/-- C8 (amended): the array allocation and the per-node label allocation
are checked — either failure propagates `WERR_NOMEM` immediately, with the
view (including the previously posted items) untouched and every node's
links and name intact; the `new_item` result, however, is not checked
(see the counterexample). -/
theorem C8_nomem (o : Nat → Bool) (h : Heap) (v : TreeView) (x k : Nat)
    (n : Node) (hx : hfind h x = some n) (hch : n.child_head ≠ none)
    (hl : n.label = none) (hok : o k = true) (hf : o (k + 1) = false) :
    tree_view_update o h v (some x) k = (h, v, k + 2, WError.nomem) ∧
    (∀ (o2 : Nat → Bool) (h2 : Heap) (v2 : TreeView) (l2 : Option Nat)
        (k2 : Nat), o2 k2 = false →
      tree_view_update o2 h2 v2 l2 k2 = (h2, v2, k2 + 1, WError.nomem)) ∧
    (∀ (o2 : Nat → Bool) (h2 : Heap) (v2 : TreeView) (x2 k2 : Nat),
      (tree_view_update o2 h2 v2 (some x2) k2).2.2.2 = WError.nomem →
      (tree_view_update o2 h2 v2 (some x2) k2).2.1 = v2 ∧
      ∀ j, (hfind (tree_view_update o2 h2 v2 (some x2) k2).1 j).map
        stripLabel = (hfind h2 j).map stripLabel) := by
  obtain ⟨c, hch2⟩ := Option.ne_none_iff_exists'.mp hch
  refine ⟨?_, ?_, ?_⟩
  · have hwalk : ∃ tail, walkNexts h h.length (some x) = x :: tail := by
      cases h with
      | nil => simp [hfind] at hx
      | cons p t =>
        exact ⟨walkNexts (p :: t) t.length n.next, by simp [walkNexts, hx]⟩
    obtain ⟨tail, hwalk⟩ := hwalk
    have hbuild : buildItems o h (k + 1) (x :: tail) =
        BuildRes.nomem h (k + 2) := by
      simp only [buildItems, hx, hch2]
      rw [if_neg (by simp [hl]), if_neg (by simp [hf])]
    simp [tree_view_update, hwalk, hok, hbuild]
  · intro o2 h2 v2 l2 k2 ho2
    simp [tree_view_update, ho2]
  · intro o2 h2 v2 x2 k2 hres
    cases ho2 : o2 k2 with
    | false =>
      exact ⟨by simp [tree_view_update, ho2], fun j => by
        simp [tree_view_update, ho2]⟩
    | true =>
      cases hb : buildItems o2 h2 (k2 + 1)
          (walkNexts h2 h2.length (some x2)) with
      | ok h3 k3 entries =>
        exfalso
        simp [tree_view_update, ho2, hb] at hres
      | nomem h3 k3 =>
        refine ⟨by simp [tree_view_update, ho2, hb], ?_⟩
        intro j
        have hstrip := buildItems_strip o2
          (walkNexts h2 h2.length (some x2)) h2 (k2 + 1) j
        rw [hb] at hstrip
        simp only [BuildRes.heap] at hstrip
        have hheap : (tree_view_update o2 h2 v2 (some x2) k2).1 = h3 := by
          simp [tree_view_update, ho2, hb]
        rw [hheap]
        exact hstrip
      | assertFailed h3 k3 =>
        exfalso
        simp [tree_view_update, ho2, hb] at hres

/-- Witness for C8: the label allocation for the children-bearing node b
fails (oracle true at 0, false at 1); update returns `WERR_NOMEM` with
heap and view untouched. -/
theorem C8_nomem_witness :
    hfind c3heap 2 =
      some (Node.mk "b" none none (some 4) (some 3) (some 1)) ∧
    (fun j => j == 0) 0 = true ∧
    (fun j => j == 0) 1 = false ∧
    tree_view_update (fun j => j == 0) c3heap
      { root := some 1, current_items := none } (some 2) 0 =
      (c3heap, { root := some 1, current_items := none }, 2,
        WError.nomem) :=
  ⟨by decide, by decide, by decide,
    (C8_nomem (fun j => j == 0) c3heap
      { root := some 1, current_items := none } 2 0
      (Node.mk "b" none none (some 4) (some 3) (some 1))
      (by decide) (by decide) (by decide) (by decide) (by decide)).1⟩

/-- C8 counterexample: a failed `new_item` allocation (oracle false at the
item index) is NOT propagated — update still returns WERR_OK and posts an
array whose first slot is a NULL item. -/
theorem C8_counterexample :
    (tree_view_update (fun j => !(j == 1)) c3heap
      { root := some 3, current_items := none } (some 3) 0).2.2.2 =
      WError.ok ∧
    (tree_view_update (fun j => !(j == 1)) c3heap
      { root := some 3, current_items := none } (some 3)
      0).2.1.current_items = some [none, none] := by
  decide

/-- C9: a successful update clears the label of every node referenced by
the previously posted item list; the label invariant — a non-null label
only on nodes referenced by the currently posted items — is preserved; and
the building loop's assertion fires (update reports the failed assert)
whenever a children-bearing chain node still carries a label. -/
theorem C9_label_lifecycle (h : Heap) (v : TreeView) (x : Nat)
    (rest : List Nat) (k : Nat)
    (hc : nextChainB h (x :: rest) = true)
    (hnd : (x :: rest).Nodup)
    (hwf : ViewWF v)
    (hli : LabelInv h v)
    (hlab : ∀ i ∈ x :: rest, ((hfind h i).all
      (fun n => n.child_head == none || n.label == none)) = true) :
    (tree_view_update (fun _ => true) h v (some x) k).2.2.2 = WError.ok ∧
    (∀ j m, j ∈ ptrsOf v →
      hfind (tree_view_update (fun _ => true) h v (some x) k).1 j =
        some m → m.label = none) ∧
    LabelInv (tree_view_update (fun _ => true) h v (some x) k).1
      (tree_view_update (fun _ => true) h v (some x) k).2.1 ∧
    (∀ (h2 : Heap) (v2 : TreeView) (y k2 : Nat) (n : Node),
      hfind h2 y = some n → n.child_head ≠ none → n.label ≠ none →
      (tree_view_update (fun _ => true) h2 v2 (some y) k2).2.2.2 =
        WError.assertFailed) := by
  have hids := chain_walk h x rest hc hnd
  obtain ⟨h', k', hb, hlocal, hmem⟩ :=
    buildItems_spec (x :: rest) h (k + 1) hc hnd (labels_ok_of_all h _ hlab)
  have hupd : tree_view_update (fun _ => true) h v (some x) k =
      ((tree_view_free_current_items h' v).1,
        { root := (tree_view_free_current_items h' v).2.root,
          current_items :=
            some ((x :: rest).map (fun i => some (mkItem h i)) ++ [none]) },
        k', WError.ok) := by
    simp only [tree_view_update, hids, hb, if_true]
  have hall : ∀ i ∈ x :: rest, ∃ n, hfind h i = some n :=
    nextChainB_find h _ hc
  have hmap2 : (x :: rest).map (fun i => some (mkItem h i)) =
      ((x :: rest).map (mkItem h)).map some := by
    simp [List.map_map, Function.comp]
  have hnewptrs : ptrsOf (tree_view_update (fun _ => true) h v
      (some x) k).2.1 = x :: rest := by
    rw [hupd]
    simp only [ptrsOf, itemsOf]
    rw [hmap2, posted_filterMap]
    exact mkItem_ptrs h _ hall
  refine ⟨by rw [hupd], ?_, ?_, ?_⟩
  · intro j m hj hm
    rw [hupd] at hm
    cases hcv : v.current_items with
    | none =>
      rw [show ptrsOf v = [] from by simp [ptrsOf, itemsOf, hcv]] at hj
      cases hj
    | some arr =>
      obtain ⟨its, harr⟩ := hwf arr hcv
      have hpv : ptrsOf v = its.filterMap Item.userptr := by
        simp [ptrsOf, itemsOf, hcv, harr, posted_filterMap]
      have hfr1 : (tree_view_free_current_items h' v).1 =
          freeItemsLoop h' (its.map some ++ [none]) := by
        simp [tree_view_free_current_items, hcv, harr]
      rw [hfr1, freeItemsLoop_find] at hm
      rw [hpv] at hj
      rw [if_pos hj] at hm
      cases hq : hfind h' j with
      | none => rw [hq] at hm; simp at hm
      | some q =>
        rw [hq] at hm
        simp only [Option.map_some'] at hm
        injection hm with hm
        exact hm ▸ rfl
  · intro i n hfi hl
    rw [hnewptrs]
    by_cases hin : i ∈ x :: rest
    · exact hin
    · exfalso
      rw [hupd] at hfi
      cases hcv : v.current_items with
      | none =>
        have hfr1 : (tree_view_free_current_items h' v).1 = h' := by
          simp [tree_view_free_current_items, hcv]
        rw [hfr1, hlocal i hin] at hfi
        have hmemv := hli i n hfi hl
        rw [show ptrsOf v = [] from by
          simp [ptrsOf, itemsOf, hcv]] at hmemv
        cases hmemv
      | some arr =>
        obtain ⟨its, harr⟩ := hwf arr hcv
        have hpv : ptrsOf v = its.filterMap Item.userptr := by
          simp [ptrsOf, itemsOf, hcv, harr, posted_filterMap]
        have hfr1 : (tree_view_free_current_items h' v).1 =
            freeItemsLoop h' (its.map some ++ [none]) := by
          simp [tree_view_free_current_items, hcv, harr]
        rw [hfr1, freeItemsLoop_find] at hfi
        by_cases hiold : i ∈ its.filterMap Item.userptr
        · rw [if_pos hiold] at hfi
          cases hq : hfind h' i with
          | none => rw [hq] at hfi; simp at hfi
          | some q =>
            rw [hq] at hfi
            simp only [Option.map_some'] at hfi
            injection hfi with hfi
            exact hl (by rw [← hfi])
        · rw [if_neg hiold, hlocal i hin] at hfi
          exact hiold (hpv ▸ hli i n hfi hl)
  · intro h2 v2 y k2 n hy hch hl
    obtain ⟨c, hch2⟩ := Option.ne_none_iff_exists'.mp hch
    have hwalk : ∃ tail, walkNexts h2 h2.length (some y) = y :: tail := by
      cases h2 with
      | nil => simp [hfind] at hy
      | cons p t =>
        exact ⟨walkNexts (p :: t) t.length n.next, by simp [walkNexts, hy]⟩
    obtain ⟨tail, hwalk⟩ := hwalk
    have hbuild : buildItems (fun _ => true) h2 (k2 + 1) (y :: tail) =
        BuildRes.assertFailed h2 (k2 + 1) := by
      simp only [buildItems, hy, hch2]
      rw [if_pos hl]
    simp [tree_view_update, hwalk, hbuild]

/-- Witness for C9: posting b's child chain [b1] over the state where the
root chain a/"+b"/c is currently posted; b's cached label gets cleared and
the invariant survives. -/
theorem C9_label_lifecycle_witness :
    nextChainB c9heap [4] = true ∧
    ([4] : List Nat).Nodup ∧
    ViewWF c9view ∧
    LabelInv c9heap c9view ∧
    ((tree_view_update (fun _ => true) c9heap c9view (some 4) 0).2.2.2 =
        WError.ok ∧
      ∀ j m, j ∈ ptrsOf c9view →
        hfind (tree_view_update (fun _ => true) c9heap c9view
          (some 4) 0).1 j = some m → m.label = none) :=
  have hwf : ViewWF c9view := by
    intro arr harr
    injection harr with he
    exact ⟨c9items, he.symm⟩
  have hli : LabelInv c9heap c9view := by
    intro i n hf hl
    have hm := hfind_mem_pair c9heap i n hf
    simp only [c9heap, List.mem_cons, List.not_mem_nil, or_false,
      Prod.mk.injEq] at hm
    rcases hm with ⟨rfl, rfl⟩ | ⟨rfl, rfl⟩ | ⟨rfl, rfl⟩ | ⟨rfl, rfl⟩
    · exact absurd rfl hl
    · decide
    · exact absurd rfl hl
    · exact absurd rfl hl
  have happ := C9_label_lifecycle c9heap c9view 4 [] 0 (by decide)
    (by decide) hwf hli (by decide)
  ⟨by decide, by decide, hwf, hli, happ.1, happ.2.1⟩

end Regedit
